import Mathlib

/-!
Verification of the anonymizer repository's core components against its
natural-language specification.

The development shallowly embeds, in Lean 4:
  * the span type `Treffer` and the merge engine `zusammenfuehren`
    (src/core/typen.py, src/core/zusammenfuehren.py),
  * the reversible tokenizer `anonymize` / `de_anonymize` together with the
    deterministic token function `_stable_token` (src/services/anonymizer.py),
  * the session store: loading, cleanup, add/find/remove/close/delete
    (src/services/session_manager.py).

Python strings are modeled as `List Char`; Python dicts as insertion-ordered
association lists with unique keys; `time.time()` values as rationals;
`hashlib.sha1` as a faithful SHA-1 implementation over byte lists.
External collaborators (json parsing, Python's `str()` rendering of arbitrary
JSON values) are passed in as function parameters, mirroring their role as
library black boxes.
-/

set_option maxHeartbeats 1000000

/-- Python strings, modelled as lists of characters. -/
abbrev Str := List Char

/-- Coerce a Lean string literal to the `Str` model. -/
def s2l (s : String) : Str := s.data

/- ### Python `str.upper` / `str.lower` / `str.strip`, restricted to ASCII
   case mapping (the only case-relevant characters the program produces). -/

/-- ASCII lower→upper table used to model Python `str.upper`. -/
def upPairs : List (Char × Char) :=
  [('a','A'), ('b','B'), ('c','C'), ('d','D'), ('e','E'), ('f','F'), ('g','G'),
   ('h','H'), ('i','I'), ('j','J'), ('k','K'), ('l','L'), ('m','M'), ('n','N'),
   ('o','O'), ('p','P'), ('q','Q'), ('r','R'), ('s','S'), ('t','T'), ('u','U'),
   ('v','V'), ('w','W'), ('x','X'), ('y','Y'), ('z','Z')]

/-- Uppercase a single character (model of Python per-character `upper`). -/
def upChar (c : Char) : Char :=
  match upPairs.lookup c with
  | some u => u
  | none => c

/-- ASCII upper→lower table used to model Python `str.lower`. -/
def lowPairs : List (Char × Char) := upPairs.map (fun p => (p.2, p.1))

/-- Lowercase a single character (model of Python per-character `lower`). -/
def lowChar (c : Char) : Char :=
  match lowPairs.lookup c with
  | some u => u
  | none => c

/-- Model of Python `str.upper`. -/
def pyUpper (s : Str) : Str := s.map upChar

/-- Model of Python `str.lower`. -/
def pyLower (s : Str) : Str := s.map lowChar

/-- Python whitespace characters recognized by `str.strip()`. -/
def isPySpace (c : Char) : Bool :=
  c = ' ' || c = '\t' || c = '\n' || c = '\r' || c = '\x0b' || c = '\x0c'

/-- Model of Python `str.strip()` (remove leading and trailing whitespace). -/
def pyStrip (s : Str) : Str :=
  ((s.dropWhile isPySpace).reverse.dropWhile isPySpace).reverse

/- ### UTF-8 encoding (model of Python `str.encode("utf-8")`). -/

/-- UTF-8 encoding of a single scalar value. -/
def utf8Char (c : Char) : List ℕ :=
  let n := c.toNat
  if n < 128 then [n]
  else if n < 2048 then [192 + n / 64, 128 + n % 64]
  else if n < 65536 then [224 + n / 4096, 128 + n / 64 % 64, 128 + n % 64]
  else [240 + n / 262144, 128 + n / 4096 % 64, 128 + n / 64 % 64, 128 + n % 64]

/-- UTF-8 encoding of a string into bytes. -/
def utf8Encode (s : Str) : List ℕ := (s.map utf8Char).flatten

/- ### SHA-1 (model of `hashlib.sha1`), big-endian over byte lists. -/

/-- Truncated 32-bit word addition. -/
def wadd (a b : ℕ) : ℕ := (a + b) % 4294967296

/-- Rotate a 32-bit word left by `n` bits. -/
def rotl (n w : ℕ) : ℕ := (w * 2 ^ n + w / 2 ^ (32 - n)) % 4294967296

/-- Big-endian 32-bit words from a byte list (groups of 4). -/
def bytesToWords : List ℕ → List ℕ
  | b0 :: b1 :: b2 :: b3 :: rest =>
      (b0 * 16777216 + b1 * 65536 + b2 * 256 + b3) :: bytesToWords rest
  | _ => []

/-- Extend the 16-word schedule by `fuel` additional words (to 80 in total). -/
def extendW : ℕ → List ℕ → List ℕ
  | 0, acc => acc
  | f + 1, acc =>
      extendW f (acc ++ [rotl 1 (((acc.getD (acc.length - 3) 0) ^^^
        acc.getD (acc.length - 8) 0) ^^^
        ((acc.getD (acc.length - 14) 0) ^^^ acc.getD (acc.length - 16) 0))])

/-- SHA-1 round function and constant for round `i`. -/
def sha1FK (i b c d : ℕ) : ℕ × ℕ :=
  if i < 20 then ((b &&& c) ||| ((b ^^^ 4294967295) &&& d), 1518500249)
  else if i < 40 then ((b ^^^ c) ^^^ d, 1859775393)
  else if i < 60 then ((b &&& c) ||| ((b &&& d) ||| (c &&& d)), 2400959708)
  else ((b ^^^ c) ^^^ d, 3395469782)

/-- The 80 SHA-1 rounds over the schedule words. -/
def sha1Rounds : List ℕ → ℕ → ℕ × ℕ × ℕ × ℕ × ℕ → ℕ × ℕ × ℕ × ℕ × ℕ
  | [], _, st => st
  | w :: ws, i, (a, b, c, d, e) =>
      let fk := sha1FK i b c d
      let temp := (rotl 5 a + fk.1 + e + fk.2 + w) % 4294967296
      sha1Rounds ws (i + 1) (temp, a, rotl 30 b, c, d)

/-- One SHA-1 compression step on a 64-byte block. -/
def sha1Block (h : ℕ × ℕ × ℕ × ℕ × ℕ) (block : List ℕ) : ℕ × ℕ × ℕ × ℕ × ℕ :=
  let ws := extendW 64 (bytesToWords block)
  match h, sha1Rounds ws 0 h with
  | (h0, h1, h2, h3, h4), (a, b, c, d, e) =>
      (wadd h0 a, wadd h1 b, wadd h2 c, wadd h3 d, wadd h4 e)

/-- Big-endian bytes of a 64-bit length value. -/
def lenBytes (n : ℕ) : List ℕ :=
  [n / 72057594037927936 % 256, n / 281474976710656 % 256,
   n / 1099511627776 % 256, n / 4294967296 % 256,
   n / 16777216 % 256, n / 65536 % 256, n / 256 % 256, n % 256]

/-- SHA-1 padding: append 0x80, zeros, and the 64-bit bit length. -/
def sha1Pad (msg : List ℕ) : List ℕ :=
  msg ++ 128 :: List.replicate ((119 - msg.length % 64) % 64) 0 ++
    lenBytes (8 * msg.length)

/-- Split a byte list into 64-byte blocks. -/
def toBlocks : List ℕ → List (List ℕ)
  | [] => []
  | x :: xs => ((x :: xs).take 64) :: toBlocks ((x :: xs).drop 64)
  termination_by l => l.length
  decreasing_by simp [List.drop]; omega

/-- Big-endian bytes of a 32-bit word. -/
def wordBytes (w : ℕ) : List ℕ :=
  [w / 16777216 % 256, w / 65536 % 256, w / 256 % 256, w % 256]

/-- SHA-1 digest (20 bytes) of a byte list. -/
def sha1 (msg : List ℕ) : List ℕ :=
  let h := (toBlocks (sha1Pad msg)).foldl sha1Block
    (1732584193, 4023233417, 2562383102, 271733878, 3285377520)
  wordBytes h.1 ++ wordBytes h.2.1 ++ wordBytes h.2.2.1 ++
    wordBytes h.2.2.2.1 ++ wordBytes h.2.2.2.2

/-- Hex character for a nibble. -/
def hexChar : ℕ → Char
  | 0 => '0' | 1 => '1' | 2 => '2' | 3 => '3' | 4 => '4' | 5 => '5'
  | 6 => '6' | 7 => '7' | 8 => '8' | 9 => '9' | 10 => 'a' | 11 => 'b'
  | 12 => 'c' | 13 => 'd' | 14 => 'e' | 15 => 'f' | _ => '0'

/-- Two hex characters of a byte. -/
def byteToHex (b : ℕ) : Str := [hexChar (b / 16 % 16), hexChar (b % 16)]

/-- Model of `hashlib.sha1(...).hexdigest()`: 40 hex characters. -/
def sha1Hex (msg : List ℕ) : Str := ((sha1 msg).map byteToHex).flatten

/- ### The span type `Treffer` (src/core/typen.py). -/

/-- A detected span: positions, label and detection source. -/
structure Treffer where
  start : ℕ
  ende : ℕ
  label : Str
  source : Str
  from_regex : Bool := false
  from_ner : Bool := false
deriving DecidableEq

/-- Overlap check of two spans (interval logic), as in `Treffer.ueberschneidet`. -/
def Treffer.ueberschneidet (t other : Treffer) : Bool :=
  !(decide (t.ende ≤ other.start) || decide (other.ende ≤ t.start))

/-- Span length (`Treffer.laenge`), an integer as in Python. -/
def Treffer.laenge (t : Treffer) : ℤ := (t.ende : ℤ) - (t.start : ℤ)

/- ### The merge engine (src/core/zusammenfuehren.py). -/

/-- The sort relation of the initial sort: key `(t.start, -(t.ende - t.start))`,
ascending lexicographically; used with a stable sort this models Python
`sorted(..., key=lambda t: (t.start, -(t.ende - t.start)))`. -/
def sortiertVor (a b : Treffer) : Prop :=
  a.start < b.start ∨ (a.start = b.start ∧ -a.laenge ≤ -b.laenge)

instance : DecidableRel sortiertVor := fun a b =>
  inferInstanceAs (Decidable (_ ∨ _))

instance : IsTotal Treffer sortiertVor := by
  constructor
  intro a b
  rcases Nat.lt_trichotomy a.start b.start with h | h | h
  · exact Or.inl (Or.inl h)
  · rcases le_total (-a.laenge) (-b.laenge) with h2 | h2
    · exact Or.inl (Or.inr ⟨h, h2⟩)
    · exact Or.inr (Or.inr ⟨h.symm, h2⟩)
  · exact Or.inr (Or.inl h)

instance : IsTrans Treffer sortiertVor := by
  constructor
  rintro a b c (h | ⟨h, h2⟩) (g | ⟨g, g2⟩)
  · exact Or.inl (h.trans g)
  · exact Or.inl (g ▸ h)
  · exact Or.inl (h ▸ g)
  · exact Or.inr ⟨h.trans g, h2.trans g2⟩

/-- The final sort relation: ascending by `start`
(Python `result.sort(key=lambda t: t.start)`). -/
def startVor (a b : Treffer) : Prop := a.start ≤ b.start

instance : DecidableRel startVor := fun a b =>
  inferInstanceAs (Decidable (_ ≤ _))

instance : IsTotal Treffer startVor := ⟨fun a b => Nat.le_total a.start b.start⟩

instance : IsTrans Treffer startVor := ⟨fun _ _ _ h g => Nat.le_trans h g⟩

/-- First accepted span overlapping the candidate `t` — the inner
`for r in result: if t.ueberschneidet(r): ...; break` scan. -/
def ersterKonflikt (t : Treffer) (R : List Treffer) : Option Treffer :=
  R.find? (fun r => t.ueberschneidet r)

/-- One step of the conflict-resolution loop body of `zusammenfuehren` for
candidate `t` against the accepted list `R`. -/
def schritt (R : List Treffer) (t : Treffer) : List Treffer :=
  match ersterKonflikt t R with
  | none => R ++ [t]
  | some r =>
      if t.source = s2l "regex" ∧ r.source = s2l "ner" ∧ r.laenge ≤ t.laenge
      then (R.erase r) ++ [t]
      else R

/-- Final nested-removal pass: keep `t` unless some other accepted span fully
contains it (`t != u and t.start >= u.start and t.ende <= u.ende`). -/
def entferntGeschachtelte (result2 : List Treffer) : List Treffer :=
  result2.filter (fun t =>
    !(result2.any (fun u =>
      decide (t ≠ u) && decide (t.start ≥ u.start) && decide (t.ende ≤ u.ende))))

/-- The merge engine: combine regex and NER spans, resolve conflicts with
regex priority, sort by start, drop fully nested spans. -/
def zusammenfuehren (regex_treffer ner_treffer : List Treffer) : List Treffer :=
  entferntGeschachtelte
    (List.insertionSort startVor
      ((List.insertionSort sortiertVor (regex_treffer ++ ner_treffer)).foldl
        schritt []))

/-- The pairwise no-overlap property of a span list. -/
def KeineUeberlappung (R : List Treffer) : Prop :=
  R.Pairwise (fun a b => ¬ a.ueberschneidet b = true)

/- ### Reversible tokenizer (src/services/anonymizer.py). -/

/-- Python slice `text[s:e]` for natural indices. -/
def pySlice (text : Str) (s e : ℕ) : Str := (text.drop s).take (e - s)

/-- The token function `_stable_token`: SHA-1 of `label + "::" + value`,
truncated to 8 hex characters, wrapped in brackets. (The Python guard
`value or ""` is the identity on actual strings and is omitted.) -/
def stable_token (label value : Str) : Str :=
  s2l "[" ++ label ++ s2l "_" ++
    (sha1Hex (utf8Encode (label ++ s2l "::" ++ value))).take 8 ++ s2l "]"

/-- Association-list lookup, modelling Python `dict` subscript/`get`. -/
def dlookup {α : Type} : List (Str × α) → Str → Option α
  | [], _ => none
  | p :: rest, k => if p.1 = k then some p.2 else dlookup rest k

/-- Python dict upsert: update the value in place if the key exists
(keeping its position), else append at the end. -/
def dupsert {α : Type} : List (Str × α) → Str → α → List (Str × α)
  | [], k, v => [(k, v)]
  | p :: rest, k, v =>
      if p.1 = k then (k, v) :: rest else p :: dupsert rest k v

/-- The token-splicing loop of reversible `anonymize`: walks the start-sorted
hits, appending the unchanged gap, then the stable token, and recording
`mapping[tag] = original`. -/
def anonLoop (text : Str) : ℕ → List (Str × Str) → List Treffer →
    Str × List (Str × Str)
  | pos, m, [] => (text.drop pos, m)
  | pos, m, h :: hs =>
      let label := pyUpper h.label
      let original := pySlice text h.start h.ende
      let tag := stable_token label original
      let rest := anonLoop text h.ende (dupsert m tag original) hs
      ((text.drop pos).take (h.start - pos) ++ tag ++ rest.1, rest.2)

/-- Reversible `anonymize` as a function of the detected hits (the pipeline
`maskiere` supplies the hits in the source): sorts hits by start and builds
`(masked_text_with_ids, mapping)`. -/
def anonymize (text : Str) (hits : List Treffer) : Str × List (Str × Str) :=
  anonLoop text 0 [] (List.insertionSort startVor hits)

/-- Boolean prefix test (the occurrence check of `str.replace`). -/
def istPraefix : Str → Str → Bool
  | [], _ => true
  | _ :: _, [] => false
  | a :: as, b :: bs => if a = b then istPraefix as bs else false

/-- Scan of Python `str.replace` for a non-empty pattern: replace each
leftmost occurrence and continue after it. -/
def ersetzeAlle (pat rep : Str) : Str → Str
  | [] => []
  | c :: s =>
      if istPraefix pat (c :: s) then
        rep ++ ersetzeAlle pat rep (s.drop (pat.length - 1))
      else c :: ersetzeAlle pat rep s
  termination_by s => s.length
  decreasing_by
  · simp only [List.length_drop, List.length_cons]
    omega
  · simp

/-- Python `str.replace` (all occurrences). The empty-pattern case inserts
the replacement around every character, as Python does; the program only
ever replaces non-empty tokens. -/
def pyReplace (s pat rep : Str) : Str :=
  if pat = [] then rep ++ (s.map (fun c => c :: rep)).flatten
  else ersetzeAlle pat rep s

/-- The key-length-descending order of `de_anonymize`
(`sorted(mapping.keys(), key=lambda s: -len(s))`, a stable sort). -/
def laengerVor (a b : Str × Str) : Prop := b.1.length ≤ a.1.length

instance : DecidableRel laengerVor := fun a b =>
  inferInstanceAs (Decidable (_ ≤ _))

instance : IsTotal (Str × Str) laengerVor := by
  constructor
  intro a b
  unfold laengerVor
  exact Nat.le_total _ _

instance : IsTrans (Str × Str) laengerVor := by
  constructor
  intro a b c h g
  unfold laengerVor at h g ⊢
  exact Nat.le_trans g h

/-- `de_anonymize`: replace every token by its original, longest keys
first. -/
def de_anonymize (text : Str) (mapping : List (Str × Str)) : Str :=
  (List.insertionSort laengerVor mapping).foldl
    (fun t kv => pyReplace t kv.1 kv.2) text

/- ### C2: the round-trip law. The masked text is analysed as a list of
chunks — unchanged gaps of the original text interleaved with spliced
tokens — and `str.replace` is shown to rewrite exactly the token chunks. -/

/-- The original substring a hit masks (`text[s:e]`). -/
def origOf (text : Str) (h : Treffer) : Str := pySlice text h.start h.ende

/-- The token spliced in for a hit. -/
def tagOf (text : Str) (h : Treffer) : Str :=
  stable_token (pyUpper h.label) (origOf text h)

/-- A chunk of the masked text: an unchanged gap, or a token together with
the original value it replaced. -/
inductive Chunk : Type
  | seg : Str → Chunk
  | tok : Str → Str → Chunk
deriving DecidableEq

/-- The text a chunk contributes to the masked string. -/
def chunkStr : Chunk → Str
  | Chunk.seg s => s
  | Chunk.tok k _ => k

/-- Concatenated text of a chunk list. -/
def renderC (C : List Chunk) : Str := (C.map chunkStr).flatten

/-- Restore the chunks carrying token `K` to their original values. -/
def stepChunks (K : Str) (C : List Chunk) : List Chunk :=
  C.map (fun c => match c with
    | Chunk.tok k v => if k = K then Chunk.seg v else Chunk.tok k v
    | Chunk.seg s => Chunk.seg s)

/-- Restore every token chunk to its original value. -/
def fullErsetzt (C : List Chunk) : List Chunk :=
  C.map (fun c => match c with
    | Chunk.tok _ v => Chunk.seg v
    | Chunk.seg s => Chunk.seg s)

/-- A well-bracketed token: an opening bracket, bracket-free middle, closing
bracket. Stable tokens over bracket-free labels have this shape. -/
def CleanTok (k : Str) : Prop :=
  ∃ m, k = '[' :: m ++ [']'] ∧ '[' ∉ m ∧ ']' ∉ m

/- ### Bridging `anonymize` to the chunk analysis -/

/-- The chunk decomposition the splicing loop produces. -/
def chunksOf (text : Str) : ℕ → List Treffer → List Chunk
  | pos, [] => [Chunk.seg (text.drop pos)]
  | pos, h :: hs =>
      Chunk.seg ((text.drop pos).take (h.start - pos)) ::
      Chunk.tok (tagOf text h) (origOf text h) ::
      chunksOf text h.ende hs

/- ### Reconstruction of the original text from the restored chunks -/

/-- Chained positions: each hit begins at or after the cursor, and the
cursor advances to its end. -/
def ChainOK : ℕ → List Treffer → Prop
  | _, [] => True
  | pos, h :: hs => pos ≤ h.start ∧ ChainOK h.ende hs

/-- The hit used in the counterexample: it masks the final "x" of a text
that itself begins with the very token generated for ("A", "x"). -/
def cexHit : Treffer := ⟨12, 13, s2l "A", s2l "regex", true, false⟩

/-- The token for label "A" and value "x". -/
def cexTok : Str := stable_token (s2l "A") (s2l "x")

/-- A text consisting of that token followed by "x". -/
def cexText : Str := cexTok ++ s2l "x"

/- ### Session store (src/services/session_manager.py) -/

/-- A session: id, timestamps, token→original mapping and reuse index. -/
structure Session where
  session_id : Str
  created_at : ℚ
  closed_at : Option ℚ
  mapping : List (Str × Str)
  index : List (Str × Str)
deriving DecidableEq

/-- The in-memory store: configured TTL, sessions dict (insertion order),
active-session pointer. -/
structure Store where
  ttl_seconds : ℤ
  sessions : List (Str × Session)
  active : Option Str
deriving DecidableEq

/-- `_make_index_key`: `f"{label.upper()}\u0000{str(original).strip().lower()}"`. -/
def make_index_key (label original : Str) : Str :=
  pyUpper label ++ '\x00' :: pyLower (pyStrip original)

/-- Truthiness of the optional active-session id
(`if not self._active_session_id`): `None` and `""` are falsy. -/
def activeTruthy : Option Str → Bool
  | none => false
  | some s => decide (s ≠ [])

/-- Truthiness of `closed_at` (`if not closed_at`): `None` and `0.0` are
falsy. -/
def closedTruthy : Option ℚ → Bool
  | none => false
  | some q => decide (q ≠ 0)

/-- `_cleanup_expired`: collect the ids of sessions whose `closed_at` is
truthy and at least `ttl_seconds` in the past, pop them, and clear the
active pointer if it was popped. -/
def cleanup_expired (now : ℚ) (st : Store) : Store :=
  if st.sessions = [] then st
  else
    let dels := (st.sessions.filter (fun p =>
      closedTruthy p.2.closed_at &&
      decide ((st.ttl_seconds : ℚ) ≤ now - (p.2.closed_at.getD 0)))).map
        Prod.fst
    { st with
      sessions := st.sessions.filter (fun p => !(dels.contains p.1)),
      active := match st.active with
        | none => none
        | some a => if dels.contains a then none else some a }

/-- `_ensure_active_session`: cleanup, reuse the active session when its id
is truthy and present, else create a fresh session (its id — `uuid4().hex`
in the source — is supplied by the caller). Returns the session id. -/
def ensure_active_session (now : ℚ) (fresh : Str) (st : Store) :
    Str × Store :=
  let st1 := cleanup_expired now st
  if activeTruthy st1.active &&
      (dlookup st1.sessions (st1.active.getD [])).isSome
  then (st1.active.getD [], st1)
  else
    (fresh, { st1 with
      sessions := st1.sessions ++ [(fresh, ⟨fresh, now, none, [], []⟩)],
      active := some fresh })

/-- Label extraction `token.split("_", 1)[0]`: the prefix before the first
underscore. -/
def labelTeil (token : Str) : Str := token.takeWhile (fun c => c ≠ '_')

/-- The loop body of `add_mapping` for one (token, value) pair: skip empty
tokens, upsert the mapping, and for tokens containing an underscore also
upsert the reuse-index entry keyed on the text before the first
underscore. -/
def add_step (acc : List (Str × Str) × List (Str × Str))
    (kv : Str × Str) : List (Str × Str) × List (Str × Str) :=
  if kv.1 = [] then acc
  else
    let m1 := dupsert acc.1 kv.1 kv.2
    if '_' ∈ kv.1 then
      (m1, dupsert acc.2
        (make_index_key (pyUpper (labelTeil kv.1)) kv.2) kv.1)
    else (m1, acc.2)

/-- `add_mapping`: ensure an active session, upsert every (token, value)
pair into the mapping, and upsert the reuse-index entry for tokens
containing an underscore. (Values are typed `str` in the source, so the
`original is None` guard never fires; the `changed` flag only gates the
disk write, which is not modelled.) -/
def add_mapping (now : ℚ) (fresh : Str) (st : Store)
    (m : List (Str × Str)) : Store :=
  if m = [] then st
  else
    let es := ensure_active_session now fresh st
    match dlookup es.2.sessions es.1 with
    | none => es.2
    | some sess =>
        let upd := m.foldl add_step (sess.mapping, sess.index)
        let sess2 : Session := { sess with mapping := upd.1, index := upd.2 }
        { es.2 with sessions := dupsert es.2.sessions es.1 sess2 }

/-- `find_existing_token`: cleanup, resolve through the active session's
index, then re-validate the token against the mapping, comparing the
stored value and the queried original after stripping. -/
def find_existing_token (now : ℚ) (st : Store) (label original : Str) :
    Option Str :=
  let st1 := cleanup_expired now st
  if activeTruthy st1.active = false then none
  else
    match dlookup st1.sessions (st1.active.getD []) with
    | none => none
    | some sess =>
        match dlookup sess.index (make_index_key label original) with
        | none => none
        | some tok =>
            if tok = [] then none
            else
              match dlookup sess.mapping tok with
              | none => none
              | some v =>
                  if pyStrip v = pyStrip original then some tok else none

/-- Association-list key removal (`dict.pop`). -/
def dremove {α : Type} : List (Str × α) → Str → List (Str × α)
  | [], _ => []
  | p :: rest, k => if p.1 = k then rest else p :: dremove rest k

/-- `remove_from_active_mapping`: pop the token from the active session's
mapping and, when the index entry derived from the old value still points
to this token, pop that index entry too. -/
def remove_from_active_mapping (now : ℚ) (st : Store) (token : Str) :
    Store :=
  let st1 := cleanup_expired now st
  if activeTruthy st1.active = false then st1
  else
    match dlookup st1.sessions (st1.active.getD []) with
    | none => st1
    | some sess =>
        match dlookup sess.mapping token with
        | none => st1
        | some old_val =>
            let mp := dremove sess.mapping token
            let idx :=
              if '_' ∈ token then
                let key := make_index_key (pyUpper (labelTeil token)) old_val
                if dlookup sess.index key = some token
                then dremove sess.index key
                else sess.index
              else sess.index
            let sess2 : Session := { sess with mapping := mp, index := idx }
            { st1 with
              sessions := dupsert st1.sessions (st1.active.getD []) sess2 }

/-- `close_active_session`: stamp `closed_at` (unless already truthy), clear
the active pointer, and run cleanup again. -/
def close_active_session (now : ℚ) (st : Store) : Store :=
  let st1 := cleanup_expired now st
  if activeTruthy st1.active = false then st1
  else
    match dlookup st1.sessions (st1.active.getD []) with
    | none => { st1 with active := none }
    | some sess =>
        let sess2 := if closedTruthy sess.closed_at then sess
          else { sess with closed_at := some now }
        cleanup_expired now
          { st1 with
            sessions := dupsert st1.sessions (st1.active.getD []) sess2,
            active := none }

/-- `delete_session`: cleanup, pop the session, clear the active pointer if
it pointed at the popped id. -/
def delete_session (now : ℚ) (st : Store) (session_id : Str) : Store :=
  let st1 := cleanup_expired now st
  if session_id = [] then st1
  else
    { st1 with
      sessions := dremove st1.sessions session_id,
      active := if st1.active = some session_id then none else st1.active }

/- ### Loading from disk (src/services/session_manager.py, `_load_from_disk`) -/

/-- Parsed JSON values (the result of `json.loads`). -/
inductive JVal : Type
  | jnull : JVal
  | jbool : Bool → JVal
  | jnum : ℚ → JVal
  | jstr : Str → JVal
  | jarr : List JVal → JVal
  | jobj : List (Str × JVal) → JVal

/-- Numeric coercion of `isinstance(x, (int, float))` followed by `float(x)`.
Python `bool` is an `int` subtype, so JSON `true`/`false` pass the check and
coerce to 1.0/0.0. -/
def jNum : JVal → Option ℚ
  | JVal.jnum q => some q
  | JVal.jbool b => some (if b then 1 else 0)
  | _ => none

/-- The loop body of `_rebuild_index` for one (token, original) pair. -/
def rebuild_step (idx : List (Str × Str)) (kv : Str × Str) :
    List (Str × Str) :=
  if kv.1 = [] then idx
  else if '_' ∈ kv.1 then
    let key := make_index_key (pyUpper (labelTeil kv.1)) kv.2
    if (dlookup idx key).isSome then idx else idx ++ [(key, kv.1)]
  else idx

/-- `_rebuild_index`: derive the reuse index from a normalized mapping,
keeping the first token per key. -/
def rebuild_index (mapping : List (Str × Str)) : List (Str × Str) :=
  mapping.foldl rebuild_step []

/-- Normalization of one parsed session object (the `for s in sessions`
loop body of `_load_from_disk`); `none` means the entry is skipped.
`pyStr` models Python `str()` applied to an arbitrary JSON value. -/
def load_session (now : ℚ) (pyStr : JVal → Str) (j : JVal) :
    Option (Str × Session) :=
  match j with
  | JVal.jobj fields =>
      match dlookup fields (s2l "session_id") with
      | some (JVal.jstr sid) =>
          if pyStrip sid = [] then none
          else
            let created_at : ℚ :=
              match dlookup fields (s2l "created_at") with
              | some v => (jNum v).getD now
              | none => now
            let closed_at : Option ℚ :=
              match dlookup fields (s2l "closed_at") with
              | some v => jNum v
              | none => none
            let mfields : List (Str × JVal) :=
              match dlookup fields (s2l "mapping") with
              | some (JVal.jobj fs) => fs
              | _ => []
            let norm_map : List (Str × Str) := mfields.foldl
              (fun acc kv =>
                if kv.1 = [] then acc
                else match kv.2 with
                  | JVal.jnull => acc
                  | v => dupsert acc kv.1 (pyStr v)) []
            let ifields : List (Str × JVal) :=
              match dlookup fields (s2l "index") with
              | some (JVal.jobj fs) => fs
              | _ => []
            let norm_idx0 : List (Str × Str) := ifields.foldl
              (fun acc kv =>
                if kv.1 = [] then acc
                else match kv.2 with
                  | JVal.jstr s => if s = [] then acc else dupsert acc kv.1 s
                  | _ => acc) []
            let norm_idx := if norm_idx0 = [] then rebuild_index norm_map
              else norm_idx0
            some (sid, ⟨sid, created_at, closed_at, norm_map, norm_idx⟩)
      | _ => none
  | _ => none

/-- `_load_from_disk`: sessions dict and active pointer recovered from the
session file. `file` is the read result (`none`: the file does not exist),
`parse` models `json.loads` (`none`: parsing raises), `pyStr` models
Python `str()`. -/
def load_from_disk (now : ℚ) (file : Option Str)
    (parse : Str → Option JVal) (pyStr : JVal → Str) :
    List (Str × Session) × Option Str :=
  match file with
  | none => ([], none)
  | some content =>
      let raw := pyStrip content
      if raw = [] then ([], none)
      else
        match parse raw with
        | none => ([], none)
        | some (JVal.jobj fields) =>
            let active0 : Option Str :=
              match dlookup fields (s2l "active_session_id") with
              | some (JVal.jstr a) =>
                  if pyStrip a = [] then none else some (pyStrip a)
              | _ => none
            let sessionsJ : List JVal :=
              match dlookup fields (s2l "sessions") with
              | some (JVal.jarr l) => l
              | _ => []
            let sessions := sessionsJ.foldl (fun acc sj =>
              match load_session now pyStr sj with
              | some (sid, sess) => dupsert acc sid sess
              | none => acc) []
            let active : Option Str :=
              match active0 with
              | some a => if (dlookup sessions a).isSome then some a else none
              | none => none
            (sessions, active)
        | some _ => ([], none)

/-- The expiry predicate of `_cleanup_expired`. -/
def expiryPred (now : ℚ) (ttl : ℤ) (p : Str × Session) : Bool :=
  closedTruthy p.2.closed_at &&
    decide ((ttl : ℚ) ≤ now - (p.2.closed_at.getD 0))

/-- The counterexample session: closed at time 0.0. -/
def c6sess : Session := ⟨s2l "s", 0, some 0, [], []⟩

/-- The counterexample store: ttl 10, one session closed at 0.0. -/
def c6store : Store := ⟨10, [(s2l "s", c6sess)], none⟩

/-- Sessions for the C6 witness. -/
def c6wsess : Session := ⟨s2l "w", 0, some 5, [], []⟩

def c6wstore : Store := ⟨10, [(s2l "w", c6wsess)], none⟩

def c6asess : Session := ⟨s2l "u", 0, none, [], []⟩

def c6astore : Store := ⟨10, [(s2l "u", c6asess)], none⟩

/-- The session of the C8 counterexample: the mapping stores " v" (with a
leading space) while the index key was normalized from it. -/
def c8sess : Session :=
  ⟨s2l "a", 0, none, [(s2l "T", s2l " v")],
   [(make_index_key (s2l "L") (s2l "v"), s2l "T")]⟩

def c8store : Store := ⟨10, [(s2l "a", c8sess)], some (s2l "a")⟩

/- ### C7: the index-value ⊆ mapping-keys invariant -/

/-- The per-session invariant: every index value is a key of the mapping. -/
def SessInv (sess : Session) : Prop :=
  ∀ kv ∈ sess.index, kv.2 ∈ sess.mapping.map Prod.fst

/-- The invariant over a sessions dict. -/
def SessionsInv (sessions : List (Str × Session)) : Prop :=
  ∀ p ∈ sessions, SessInv p.2

/-- The store-wide invariant. -/
def StoreInv (st : Store) : Prop := SessionsInv st.sessions

instance (sess : Session) : Decidable (SessInv sess) :=
  inferInstanceAs (Decidable (∀ kv ∈ sess.index, kv.2 ∈
    sess.mapping.map Prod.fst))

instance (l : List (Str × Session)) : Decidable (SessionsInv l) :=
  inferInstanceAs (Decidable (∀ p ∈ l, SessInv p.2))

instance (st : Store) : Decidable (StoreInv st) :=
  inferInstanceAs (Decidable (SessionsInv st.sessions))

/-- The corrupt file content of the C7 counterexample: a session object
whose stored index holds an entry whose value is not a mapping key. -/
def c7json : JVal :=
  JVal.jobj [(s2l "sessions", JVal.jarr [JVal.jobj
    [(s2l "session_id", JVal.jstr (s2l "s")),
     (s2l "index", JVal.jobj [(s2l "K", JVal.jstr (s2l "T"))])]])]

/- ### Merge engine lemmas -/

lemma ueberschneidet_iff (a b : Treffer) :
    a.ueberschneidet b = true ↔ b.start < a.ende ∧ a.start < b.ende := by
  simp [Treffer.ueberschneidet, not_le]

lemma ueberschneidet_comm (a b : Treffer) :
    a.ueberschneidet b = b.ueberschneidet a := by
  simp only [Treffer.ueberschneidet, Bool.or_comm]

lemma keineUeb_symm :
    Symmetric (fun a b : Treffer => ¬ a.ueberschneidet b = true) := by
  intro a b h
  rw [ueberschneidet_comm]
  exact h

lemma keineUeb_nodup (R : List Treffer) (hv : ∀ r ∈ R, r.start < r.ende)
    (h : KeineUeberlappung R) : R.Nodup := by
  have : ∀ a ∈ R, ∀ b ∈ R, a ≠ b → ¬ a.ueberschneidet b = true :=
    List.Pairwise.forall keineUeb_symm h
  refine List.Pairwise.imp_of_mem ?_ h
  intro a b ha _ hab heq
  subst heq
  have hov : a.ueberschneidet a = true := by
    rw [ueberschneidet_iff]
    exact ⟨hv a ha, hv a ha⟩
  exact hab hov

lemma mem_schritt (R : List Treffer) (t : Treffer) :
    ∀ x ∈ schritt R t, x ∈ R ∨ x = t := by
  intro x hx
  unfold schritt at hx
  split at hx
  · rcases List.mem_append.mp hx with h | h
    · exact Or.inl h
    · exact Or.inr (List.mem_singleton.mp h)
  · split at hx
    · rcases List.mem_append.mp hx with h | h
      · exact Or.inl (List.erase_subset _ _ h)
      · exact Or.inr (List.mem_singleton.mp h)
    · exact Or.inl hx

lemma schritt_keineUeb (R : List Treffer) (t : Treffer)
    (hR : KeineUeberlappung R) (hstarts : ∀ r ∈ R, r.start ≤ t.start)
    (hvR : ∀ r ∈ R, r.start < r.ende) (hvt : t.start < t.ende) :
    KeineUeberlappung (schritt R t) := by
  unfold schritt
  split
  next hf =>
    have hnone : ∀ x ∈ R, ¬ (t.ueberschneidet x = true) := by
      have := List.find?_eq_none.mp hf
      intro x hx
      simpa using this x hx
    refine List.pairwise_append.mpr ⟨hR, List.pairwise_singleton _ _, ?_⟩
    intro a ha b hb
    rw [List.mem_singleton.mp hb, ueberschneidet_comm]
    exact hnone a ha
  next r hf =>
    have hpr : t.ueberschneidet r = true := by
      simpa using List.find?_some hf
    have hrR : r ∈ R := List.mem_of_find?_eq_some hf
    have hnd : R.Nodup := keineUeb_nodup R hvR hR
    have huniq : ∀ x ∈ R, x ≠ r → ¬ (t.ueberschneidet x = true) := by
      intro x hx hne hox
      have h1 := (ueberschneidet_iff t r).mp hpr
      have h2 := (ueberschneidet_iff t x).mp hox
      have hxr : x.ueberschneidet r = true := by
        rw [ueberschneidet_iff]
        exact ⟨lt_of_le_of_lt (hstarts r hrR) h2.2,
          lt_of_le_of_lt (hstarts x hx) h1.2⟩
      exact (List.Pairwise.forall keineUeb_symm hR) hx hrR hne hxr
    split
    · refine List.pairwise_append.mpr
        ⟨List.Pairwise.sublist (List.erase_sublist r R) hR,
         List.pairwise_singleton _ _, ?_⟩
      intro a ha b hb
      rw [List.mem_singleton.mp hb]
      have hmem := (List.Nodup.mem_erase_iff hnd).mp ha
      rw [ueberschneidet_comm]
      exact huniq a hmem.2 hmem.1
    · exact hR

lemma foldl_keineUeb : ∀ (C R : List Treffer),
    C.Pairwise (fun a b => a.start ≤ b.start) →
    (∀ c ∈ C, c.start < c.ende) → (∀ r ∈ R, r.start < r.ende) →
    (∀ r ∈ R, ∀ c ∈ C, r.start ≤ c.start) →
    KeineUeberlappung R → KeineUeberlappung (C.foldl schritt R) := by
  intro C
  induction C with
  | nil => intro R _ _ _ _ hR; simpa using hR
  | cons c C ih =>
      intro R hsort hvC hvR hcross hR
      rw [List.foldl_cons]
      have hsc := List.pairwise_cons.mp hsort
      refine ih (schritt R c) hsc.2 (fun x hx => hvC x (List.mem_cons_of_mem _ hx))
        ?_ ?_ ?_
      · intro x hx
        rcases mem_schritt R c x hx with h | h
        · exact hvR x h
        · rw [h]; exact hvC c (List.mem_cons_self _ _)
      · intro x hx c' hc'
        rcases mem_schritt R c x hx with h | h
        · exact hcross x h c' (List.mem_cons_of_mem _ hc')
        · rw [h]; exact hsc.1 c' hc'
      · exact schritt_keineUeb R c hR
          (fun r hr => hcross r hr c (List.mem_cons_self _ _)) hvR
          (hvC c (List.mem_cons_self _ _))

/-- C1: for valid input spans, any two distinct spans of the merge engine's
output do not overlap. -/
theorem merge_no_overlap (lr ln : List Treffer)
    (hv : ∀ t ∈ lr ++ ln, t.start < t.ende) :
    ∀ a ∈ zusammenfuehren lr ln, ∀ b ∈ zusammenfuehren lr ln, a ≠ b →
      a.ueberschneidet b = false := by
  intro a ha b hb hab
  have hperm : (List.insertionSort sortiertVor (lr ++ ln)).Perm (lr ++ ln) :=
    List.perm_insertionSort _ _
  have hvC : ∀ c ∈ List.insertionSort sortiertVor (lr ++ ln),
      c.start < c.ende := fun c hc => hv c (hperm.mem_iff.mp hc)
  have hsortC : (List.insertionSort sortiertVor (lr ++ ln)).Pairwise
      (fun a b => a.start ≤ b.start) := by
    refine List.Pairwise.imp ?_ (List.sorted_insertionSort sortiertVor (lr ++ ln))
    intro a b h
    rcases h with h | ⟨h, _⟩
    · exact Nat.le_of_lt h
    · exact Nat.le_of_eq h
  have hfold : KeineUeberlappung
      ((List.insertionSort sortiertVor (lr ++ ln)).foldl schritt []) :=
    foldl_keineUeb _ [] hsortC hvC (by simp) (by simp) (by simp [KeineUeberlappung])
  have hperm2 : (List.insertionSort startVor
      ((List.insertionSort sortiertVor (lr ++ ln)).foldl schritt [])).Perm
      ((List.insertionSort sortiertVor (lr ++ ln)).foldl schritt []) :=
    List.perm_insertionSort _ _
  have h2 : KeineUeberlappung (List.insertionSort startVor
      ((List.insertionSort sortiertVor (lr ++ ln)).foldl schritt [])) :=
    (List.Perm.pairwise_iff (fun h => keineUeb_symm h) hperm2).mpr hfold
  have hout : KeineUeberlappung (zusammenfuehren lr ln) :=
    List.Pairwise.filter _ h2
  have := (List.Pairwise.forall keineUeb_symm hout) ha hb hab
  simpa using this

/-- C4: the merge engine's output is sorted ascending by start, and no output
span is a strict sub-range of another output span. -/
theorem merge_sorted_and_no_nested (lr ln : List Treffer) :
    (zusammenfuehren lr ln).Pairwise (fun a b => a.start ≤ b.start) ∧
    ∀ a ∈ zusammenfuehren lr ln, ∀ b ∈ zusammenfuehren lr ln, a ≠ b →
      ¬(b.start ≤ a.start ∧ a.ende ≤ b.ende) := by
  constructor
  · unfold zusammenfuehren entferntGeschachtelte
    refine List.Pairwise.filter _ ?_
    exact List.Pairwise.imp (fun h => h)
      (List.sorted_insertionSort startVor
        ((List.insertionSort sortiertVor (lr ++ ln)).foldl schritt []))
  · intro a ha b hb hab hcontain
    unfold zusammenfuehren entferntGeschachtelte at ha hb
    have hamem := List.mem_filter.mp ha
    have hbmem := List.mem_filter.mp hb
    have h2 := hamem.2
    simp only [Bool.not_eq_eq_eq_not, Bool.not_true, List.any_eq_false,
      Bool.and_eq_true, decide_eq_true_eq, not_and] at h2
    exact h2 b hbmem.1 ⟨hab, hcontain.1⟩ hcontain.2

lemma find?_append_first {α} (p : α → Bool) :
    ∀ (l1 : List α) (r : α) (l2 : List α), (∀ x ∈ l1, p x = false) →
      p r = true → (l1 ++ r :: l2).find? p = some r := by
  intro l1
  induction l1 with
  | nil => intro r l2 _ hr; simpa using List.find?_cons_of_pos _ hr
  | cons x l1 ih =>
      intro r l2 h hr
      rw [List.cons_append, List.find?_cons_of_neg]
      · exact ih r l2 (fun y hy => h y (List.mem_cons_of_mem _ hy)) hr
      · simp [h x (List.mem_cons_self _ _)]

/-- C3: the merge engine sorts the candidates by (start ascending, length
descending) and scans them sequentially against the accepted list `R`,
examining only the first overlapping accepted span `r`: `r` is replaced
when the candidate is a regex span at least as long as an accepted NER
span, any other overlapping candidate is discarded, and a candidate with
no overlap is appended. -/
theorem merge_algorithm_characterization (lr ln : List Treffer) :
    ((List.insertionSort sortiertVor (lr ++ ln)).Perm (lr ++ ln)
      ∧ (List.insertionSort sortiertVor (lr ++ ln)).Sorted sortiertVor
      ∧ zusammenfuehren lr ln =
          entferntGeschachtelte (List.insertionSort startVor
            ((List.insertionSort sortiertVor (lr ++ ln)).foldl schritt [])))
    ∧ (∀ t (R : List Treffer), (∀ r ∈ R, ¬(t.ueberschneidet r = true)) →
        schritt R t = R ++ [t])
    ∧ (∀ t (R1 : List Treffer) r R2,
        (∀ x ∈ R1, ¬(t.ueberschneidet x = true)) →
        t.ueberschneidet r = true →
        ((t.source = s2l "regex" ∧ r.source = s2l "ner" ∧ r.laenge ≤ t.laenge) →
          schritt (R1 ++ r :: R2) t = ((R1 ++ r :: R2).erase r) ++ [t]) ∧
        (¬(t.source = s2l "regex" ∧ r.source = s2l "ner" ∧ r.laenge ≤ t.laenge) →
          schritt (R1 ++ r :: R2) t = R1 ++ r :: R2)) := by
  refine ⟨⟨List.perm_insertionSort _ _, List.sorted_insertionSort _ _, rfl⟩, ?_, ?_⟩
  · intro t R h
    have hnone : ersterKonflikt t R = none :=
      List.find?_eq_none.mpr (by intro x hx; simpa using h x hx)
    simp [schritt, hnone]
  · intro t R1 r R2 h1 hr
    have hf : ersterKonflikt t (R1 ++ r :: R2) = some r :=
      find?_append_first _ R1 r R2 (fun x hx => by simpa using h1 x hx) hr
    constructor
    · intro hc
      simp [schritt, hf, hc]
    · intro hc
      simp [schritt, hf, hc]

/-- C3 witness at concrete inputs: an append step and a replace step. -/
theorem merge_algorithm_characterization_witness :
    schritt [] (⟨0, 3, s2l "X", s2l "regex", false, false⟩ : Treffer) =
      [⟨0, 3, s2l "X", s2l "regex", false, false⟩] ∧
    schritt [⟨1, 2, s2l "Y", s2l "ner", false, false⟩]
        (⟨0, 3, s2l "X", s2l "regex", false, false⟩ : Treffer) =
      [⟨0, 3, s2l "X", s2l "regex", false, false⟩] := by
  constructor
  · have h := (merge_algorithm_characterization [] []).2.1
      (⟨0, 3, s2l "X", s2l "regex", false, false⟩ : Treffer) [] (by simp)
    simpa using h
  · have h := ((merge_algorithm_characterization [] []).2.2
      (⟨0, 3, s2l "X", s2l "regex", false, false⟩ : Treffer) []
      (⟨1, 2, s2l "Y", s2l "ner", false, false⟩ : Treffer) []
      (by simp) (by decide)).1 (by decide)
    simpa using h

/-- C1 witness at a concrete input. -/
theorem merge_no_overlap_witness :
    (∀ t ∈ ([⟨0, 2, s2l "E_MAIL", s2l "regex", false, false⟩] ++
        [⟨1, 3, s2l "PER", s2l "ner", false, false⟩] : List Treffer),
      t.start < t.ende) ∧
    (∀ a ∈ zusammenfuehren [⟨0, 2, s2l "E_MAIL", s2l "regex", false, false⟩]
        [⟨1, 3, s2l "PER", s2l "ner", false, false⟩],
     ∀ b ∈ zusammenfuehren [⟨0, 2, s2l "E_MAIL", s2l "regex", false, false⟩]
        [⟨1, 3, s2l "PER", s2l "ner", false, false⟩], a ≠ b →
      a.ueberschneidet b = false) :=
  ⟨by decide, merge_no_overlap _ _ (by decide)⟩

/- ### C5: token format and determinism -/

lemma mem_dupsert {α : Type} :
    ∀ (m : List (Str × α)) (k : Str) (v : α) (p : Str × α),
      p ∈ dupsert m k v → p ∈ m ∨ p = (k, v) := by
  intro m
  induction m with
  | nil =>
      intro k v p hp
      simp [dupsert] at hp
      exact Or.inr (by rw [hp])
  | cons q rest ih =>
      intro k v p hp
      unfold dupsert at hp
      by_cases h : q.1 = k
      · rw [if_pos h] at hp
        rcases List.mem_cons.mp hp with h2 | h2
        · exact Or.inr h2
        · exact Or.inl (List.mem_cons_of_mem _ h2)
      · rw [if_neg h] at hp
        rcases List.mem_cons.mp hp with h2 | h2
        · exact Or.inl (h2 ▸ List.mem_cons_self _ _)
        · rcases ih k v p h2 with h3 | h3
          · exact Or.inl (List.mem_cons_of_mem _ h3)
          · exact Or.inr h3

lemma anonLoop_mapping_mem (text : Str) :
    ∀ (hs : List Treffer) (pos : ℕ) (m : List (Str × Str))
      (kv : Str × Str), kv ∈ (anonLoop text pos m hs).2 →
      kv ∈ m ∨ ∃ h ∈ hs, kv = (stable_token (pyUpper h.label)
        (pySlice text h.start h.ende), pySlice text h.start h.ende) := by
  intro hs
  induction hs with
  | nil => intro pos m kv hkv; exact Or.inl hkv
  | cons h hs ih =>
      intro pos m kv hkv
      unfold anonLoop at hkv
      rcases ih h.ende _ kv hkv with h2 | ⟨h', hh', he⟩
      · rcases mem_dupsert _ _ _ _ h2 with h3 | h3
        · exact Or.inl h3
        · exact Or.inr ⟨h, List.mem_cons_self _ _, h3⟩
      · exact Or.inr ⟨h', List.mem_cons_of_mem _ hh', he⟩

/-- C5: every mapping entry of reversible anonymization pairs a token of the
documented format — bracket, uppercased label, underscore, first 8 hex
characters of `sha1(LABEL + "::" + value)`, bracket — with the original
substring; and the token is a pure function of the (label, value) pair. -/
theorem stable_token_format (text : Str) (hits : List Treffer) :
    (∀ kv ∈ (anonymize text hits).2, ∃ h ∈ hits,
       kv.2 = pySlice text h.start h.ende ∧
       kv.1 = s2l "[" ++ pyUpper h.label ++ s2l "_" ++
         (sha1Hex (utf8Encode (pyUpper h.label ++ s2l "::" ++ kv.2))).take 8 ++
         s2l "]")
    ∧ (∀ l1 v1 l2 v2 : Str, l1 = l2 → v1 = v2 →
        stable_token l1 v1 = stable_token l2 v2) := by
  constructor
  · intro kv hkv
    unfold anonymize at hkv
    rcases anonLoop_mapping_mem text _ 0 [] kv hkv with h | ⟨h, hh, he⟩
    · simp at h
    · refine ⟨h, (List.perm_insertionSort startVor hits).mem_iff.mp hh, ?_, ?_⟩
      · rw [he]
      · rw [he]
        rfl
  · intro l1 v1 l2 v2 h1 h2
    rw [h1, h2]

lemma cleanTok_ne_nil {k : Str} (h : CleanTok k) : k ≠ [] := by
  rcases h with ⟨m, hm, -, -⟩
  simp [hm]

lemma istPraefix_self_append : ∀ (l r : Str), istPraefix l (l ++ r) = true := by
  intro l
  induction l with
  | nil => intro r; rfl
  | cons c l ih => intro r; simpa [istPraefix] using ih r

lemma istPraefix_head_ne (a b : Char) (as bs : Str) (h : a ≠ b) :
    istPraefix (a :: as) (b :: bs) = false := by
  simp [istPraefix, h]

lemma ersetze_nil (pat rep : Str) : ersetzeAlle pat rep [] = [] := by
  simp [ersetzeAlle]

lemma ersetze_cons (pat rep : Str) (c : Char) (s : Str) :
    ersetzeAlle pat rep (c :: s) =
      if istPraefix pat (c :: s) then
        rep ++ ersetzeAlle pat rep (s.drop (pat.length - 1))
      else c :: ersetzeAlle pat rep s := by
  conv_lhs => unfold ersetzeAlle

/-- Skipping over a bracket-free prefix: no occurrence of a token starting
with a bracket can begin inside it. -/
lemma ersetze_seg (K rep : Str) (Kt : Str) (hK : K = '[' :: Kt) :
    ∀ (s rest : Str), (∀ c ∈ s, c ≠ '[') →
      ersetzeAlle K rep (s ++ rest) = s ++ ersetzeAlle K rep rest := by
  intro s
  induction s with
  | nil => intro rest _; simp
  | cons c s ih =>
      intro rest hs
      have hcond : istPraefix K (c :: (s ++ rest)) = false := by
        rw [hK]
        exact istPraefix_head_ne _ _ _ _
          (fun h => (hs c (List.mem_cons_self _ _)) h.symm)
      rw [List.cons_append, ersetze_cons, hcond]
      simp only [Bool.false_eq_true, if_false]
      rw [ih rest (fun x hx => hs x (List.mem_cons_of_mem _ hx))]
      rfl

/-- Consuming an occurrence of the pattern itself. -/
lemma ersetze_self (K rep : Str) (hne : K ≠ []) :
    ∀ rest, ersetzeAlle K rep (K ++ rest) = rep ++ ersetzeAlle K rep rest := by
  intro rest
  rcases K with _ | ⟨c, Kt⟩
  · exact absurd rfl hne
  · rw [List.cons_append, ersetze_cons,
      show istPraefix (c :: Kt) (c :: (Kt ++ rest)) = true from
        istPraefix_self_append (c :: Kt) rest]
    simp only [if_true]
    congr 1
    congr 1
    simp [List.drop_left' rfl]

/-- The closing-bracket argument: the bracket-closed tail of one clean token
is never a prefix of a different clean token's tail followed by anything. -/
lemma tail_not_pre :
    ∀ (Km m : Str) (rest : Str), ']' ∉ Km → ']' ∉ m → Km ≠ m →
      istPraefix (Km ++ [']']) (m ++ ']' :: rest) = false := by
  intro Km
  induction Km with
  | nil =>
      intro m rest _ hm hne
      rcases m with _ | ⟨c, m'⟩
      · exact absurd rfl hne
      · have hc : (']' : Char) ≠ c :=
          fun h => hm (h ▸ List.mem_cons_self _ _)
        simpa using istPraefix_head_ne ']' c [] (m' ++ ']' :: rest) hc
  | cons a Km ih =>
      intro m rest ha hm hne
      rcases m with _ | ⟨c, m'⟩
      · have hc : a ≠ ']' := fun h => ha (h ▸ List.mem_cons_self _ _)
        simpa using istPraefix_head_ne a ']' (Km ++ [']']) rest hc
      · by_cases hac : a = c
        · subst hac
          have h1 : ']' ∉ Km := fun h => ha (List.mem_cons_of_mem _ h)
          have h2 : ']' ∉ m' := fun h => hm (List.mem_cons_of_mem _ h)
          have h3 : Km ≠ m' := fun h => hne (by rw [h])
          simpa [istPraefix] using ih m' rest h1 h2 h3
        · simpa using istPraefix_head_ne a c (Km ++ [']']) (m' ++ ']' :: rest) hac

/-- Skipping over a different clean token. -/
lemma ersetze_tok (K rep k : Str) (hK : CleanTok K) (hk : CleanTok k)
    (hne : k ≠ K) :
    ∀ rest, ersetzeAlle K rep (k ++ rest) = k ++ ersetzeAlle K rep rest := by
  intro rest
  rcases hK with ⟨Km, hKm, hKl, hKr⟩
  rcases hk with ⟨m, hm, hml, hmr⟩
  subst hKm
  subst hm
  have hassoc : ('[' :: m ++ [']']) ++ rest = '[' :: (m ++ ']' :: rest) := by
    simp
  have hcond : istPraefix ('[' :: Km ++ [']']) ('[' :: (m ++ ']' :: rest)) =
      false := by
    have htail := tail_not_pre Km m rest hKr hmr (fun h => hne (by rw [h]))
    simpa [istPraefix] using htail
  rw [hassoc, ersetze_cons, hcond]
  simp only [Bool.false_eq_true, if_false]
  rw [ersetze_seg ('[' :: Km ++ [']']) rep (Km ++ [']']) rfl m (']' :: rest)
    (fun c hc h => hml (h ▸ hc))]
  have hcond2 : istPraefix ('[' :: Km ++ [']']) (']' :: rest) = false :=
    istPraefix_head_ne _ _ _ _ (by decide)
  rw [ersetze_cons, hcond2]
  simp

/-- One `str.replace` pass over a chunk list rewrites exactly the chunks
whose token equals the replaced key. -/
lemma ersetze_chunks (K V : Str) (hK : CleanTok K) :
    ∀ (C : List Chunk),
      (∀ s, Chunk.seg s ∈ C → '[' ∉ s) →
      (∀ k v, Chunk.tok k v ∈ C → CleanTok k ∧ (k = K → v = V)) →
      ersetzeAlle K V (renderC C) = renderC (stepChunks K C) := by
  intro C
  induction C with
  | nil => intro _ _; simp [renderC, stepChunks, ersetze_nil]
  | cons c C ih =>
      intro hseg htok
      have hsegC : ∀ s, Chunk.seg s ∈ C → '[' ∉ s :=
        fun s hs => hseg s (List.mem_cons_of_mem _ hs)
      have htokC : ∀ k v, Chunk.tok k v ∈ C → CleanTok k ∧ (k = K → v = V) :=
        fun k v hkv => htok k v (List.mem_cons_of_mem _ hkv)
      cases c with
      | seg s =>
          have hs : '[' ∉ s := hseg s (List.mem_cons_self _ _)
          have hrender : renderC (Chunk.seg s :: C) = s ++ renderC C := by
            simp [renderC, chunkStr]
          rw [hrender]
          obtain ⟨Km, hKm, -, -⟩ := hK
          rw [ersetze_seg K V (Km ++ [']']) (by rw [hKm]; rfl) s (renderC C)
            (fun c hc h => hs (h ▸ hc))]
          rw [ih hsegC htokC]
          simp [renderC, stepChunks, chunkStr]
      | tok k v =>
          have hkv := htok k v (List.mem_cons_self _ _)
          have hrender : renderC (Chunk.tok k v :: C) = k ++ renderC C := by
            simp [renderC, chunkStr]
          rw [hrender]
          by_cases hkK : k = K
          · subst hkK
            rw [ersetze_self k V (cleanTok_ne_nil hkv.1) (renderC C)]
            rw [ih hsegC htokC]
            have hv : v = V := hkv.2 rfl
            simp [renderC, stepChunks, chunkStr, hv]
          · rw [ersetze_tok K V k hK hkv.1 hkK (renderC C)]
            rw [ih hsegC htokC]
            simp [renderC, stepChunks, chunkStr, hkK]

lemma fullErsetzt_stepChunks (K : Str) (C : List Chunk) :
    fullErsetzt (stepChunks K C) = fullErsetzt C := by
  induction C with
  | nil => rfl
  | cons c C ih =>
      cases c with
      | seg s => simpa [fullErsetzt, stepChunks] using ih
      | tok k v =>
          by_cases h : k = K
          · simpa [fullErsetzt, stepChunks, h] using ih
          · simpa [fullErsetzt, stepChunks, h] using ih

lemma fullErsetzt_id_of_no_tok :
    ∀ (C : List Chunk), (∀ k v, Chunk.tok k v ∈ C → False) →
      fullErsetzt C = C := by
  intro C
  induction C with
  | nil => intro _; rfl
  | cons c C ih =>
      intro h
      cases c with
      | seg s =>
          have := ih (fun k v hkv => h k v (List.mem_cons_of_mem _ hkv))
          simpa [fullErsetzt] using this
      | tok k v => exact absurd (List.mem_cons_self _ _) (h k v)

/-- Folding the replacements over the key-value list restores every token
chunk, in any processing order of a duplicate-free key list. -/
lemma dean_loop :
    ∀ (L : List (Str × Str)) (C : List Chunk),
      (∀ kv ∈ L, CleanTok kv.1) →
      (L.map Prod.fst).Nodup →
      (∀ s, Chunk.seg s ∈ C → '[' ∉ s) →
      (∀ k v, Chunk.tok k v ∈ C → CleanTok k ∧ '[' ∉ v ∧ (k, v) ∈ L) →
      L.foldl (fun t kv => pyReplace t kv.1 kv.2) (renderC C) =
        renderC (fullErsetzt C) := by
  intro L
  induction L with
  | nil =>
      intro C _ _ _ htok
      rw [fullErsetzt_id_of_no_tok C
        (fun k v hkv => by simpa using (htok k v hkv).2.2)]
      rfl
  | cons KV L ih =>
      intro C hclean hnodup hseg htok
      have hcleanK : CleanTok KV.1 := hclean KV (List.mem_cons_self _ _)
      have hKne : KV.1 ≠ [] := cleanTok_ne_nil hcleanK
      have hnd : KV.1 ∉ L.map Prod.fst ∧ (L.map Prod.fst).Nodup := by
        rw [List.map_cons] at hnodup
        exact List.nodup_cons.mp hnodup
      rw [List.foldl_cons]
      have hstep : pyReplace (renderC C) KV.1 KV.2 =
          renderC (stepChunks KV.1 C) := by
        rw [pyReplace, if_neg hKne]
        refine ersetze_chunks KV.1 KV.2 hcleanK C hseg ?_
        intro k v hkv
        refine ⟨(htok k v hkv).1, ?_⟩
        intro hk
        have h2 := (htok k v hkv).2.2
        rw [hk] at h2
        rcases List.mem_cons.mp h2 with h | h
        · exact congrArg Prod.snd h
        · exact absurd (List.mem_map.mpr ⟨(KV.1, v), h, rfl⟩) hnd.1
      rw [hstep]
      rw [ih (stepChunks KV.1 C)
        (fun kv hkv => hclean kv (List.mem_cons_of_mem _ hkv))
        hnd.2 ?_ ?_]
      · exact congrArg renderC (fullErsetzt_stepChunks KV.1 C)
      · intro s hs
        unfold stepChunks at hs
        rcases List.mem_map.mp hs with ⟨c, hc, heq⟩
        cases c with
        | seg s2 =>
            simp at heq
            exact heq ▸ hseg s2 hc
        | tok k2 v2 =>
            by_cases hk : k2 = KV.1
            · simp [hk] at heq
              exact heq ▸ (htok k2 v2 hc).2.1
            · simp [hk] at heq
      · intro k v hkv
        unfold stepChunks at hkv
        rcases List.mem_map.mp hkv with ⟨c, hc, heq⟩
        cases c with
        | seg s2 => simp at heq
        | tok k2 v2 =>
            by_cases hk : k2 = KV.1
            · simp [hk] at heq
            · simp [hk] at heq
              obtain ⟨hk1, hk2⟩ := heq
              subst hk1
              subst hk2
              have h3 := htok k2 v2 hc
              refine ⟨h3.1, h3.2.1, ?_⟩
              rcases List.mem_cons.mp h3.2.2 with h | h
              · exact absurd (congrArg Prod.fst h) hk
              · exact h

/-- C5 witness at a concrete text and hit list. -/
theorem stable_token_format_witness :
    (∀ kv ∈ (anonymize (s2l "ab")
        [⟨0, 1, s2l "per", s2l "ner", false, true⟩]).2,
      ∃ h ∈ ([⟨0, 1, s2l "per", s2l "ner", false, true⟩] : List Treffer),
       kv.2 = pySlice (s2l "ab") h.start h.ende ∧
       kv.1 = s2l "[" ++ pyUpper h.label ++ s2l "_" ++
         (sha1Hex (utf8Encode (pyUpper h.label ++ s2l "::" ++ kv.2))).take 8 ++
         s2l "]")
    ∧ (∀ l1 v1 l2 v2 : Str, l1 = l2 → v1 = v2 →
        stable_token l1 v1 = stable_token l2 v2) :=
  stable_token_format (s2l "ab") [⟨0, 1, s2l "per", s2l "ner", false, true⟩]

lemma anonLoop_fst (text : Str) :
    ∀ (hs : List Treffer) (pos : ℕ) (m : List (Str × Str)),
      (anonLoop text pos m hs).1 = renderC (chunksOf text pos hs) := by
  intro hs
  induction hs with
  | nil => intro pos m; simp [anonLoop, chunksOf, renderC, chunkStr]
  | cons h hs ih =>
      intro pos m
      simp [anonLoop, chunksOf, renderC, chunkStr, tagOf, origOf, ih]

lemma anonLoop_snd (text : Str) :
    ∀ (hs : List Treffer) (pos : ℕ) (m : List (Str × Str)),
      (anonLoop text pos m hs).2 =
        hs.foldl (fun m h => dupsert m (tagOf text h) (origOf text h)) m := by
  intro hs
  induction hs with
  | nil => intro pos m; rfl
  | cons h hs ih =>
      intro pos m
      simp [anonLoop, tagOf, origOf, ih]

lemma dlookup_dupsert_self {α : Type} :
    ∀ (m : List (Str × α)) (k : Str) (v : α),
      dlookup (dupsert m k v) k = some v := by
  intro m
  induction m with
  | nil => intro k v; simp [dupsert, dlookup]
  | cons p rest ih =>
      intro k v
      by_cases h : p.1 = k
      · simp [dupsert, h, dlookup]
      · simp [dupsert, h, dlookup, ih]

lemma dlookup_dupsert_ne {α : Type} :
    ∀ (m : List (Str × α)) (k : Str) (v : α) (k2 : Str), k2 ≠ k →
      dlookup (dupsert m k v) k2 = dlookup m k2 := by
  intro m
  induction m with
  | nil =>
      intro k v k2 h
      simp only [dupsert, dlookup]
      rw [if_neg (fun hh : k = k2 => h hh.symm)]
  | cons p rest ih =>
      intro k v k2 h
      by_cases hp : p.1 = k
      · simp only [dupsert, hp, if_true, dlookup]
        simp only [if_neg (fun hh : k = k2 => h hh.symm)]
      · simp only [dupsert, hp, if_false, dlookup]
        by_cases hp2 : p.1 = k2
        · rw [if_pos hp2, if_pos hp2]
        · rw [if_neg hp2, if_neg hp2, ih k v k2 h]

lemma dlookup_fold_dupsert :
    ∀ (ps : List (Str × Str)) (m0 : List (Str × Str)) (k : Str) (v : Str),
      (∀ p ∈ ps, p.1 = k → p.2 = v) →
      ((∃ p ∈ ps, p.1 = k) ∨ dlookup m0 k = some v) →
      dlookup (ps.foldl (fun m p => dupsert m p.1 p.2) m0) k = some v := by
  intro ps
  induction ps with
  | nil =>
      intro m0 k v _ hd
      rcases hd with ⟨p, hp, _⟩ | hd
      · simp at hp
      · simpa using hd
  | cons q ps ih =>
      intro m0 k v hall hd
      rw [List.foldl_cons]
      refine ih (dupsert m0 q.1 q.2) k v
        (fun p hp h => hall p (List.mem_cons_of_mem _ hp) h) ?_
      by_cases hq : q.1 = k
      · right
        rw [hq, dlookup_dupsert_self]
        rw [hall q (List.mem_cons_self _ _) hq]
      · rcases hd with ⟨p, hp, h⟩ | hd
        · rcases List.mem_cons.mp hp with h2 | h2
          · exact absurd (h2 ▸ h) hq
          · exact Or.inl ⟨p, h2, h⟩
        · right
          rw [dlookup_dupsert_ne m0 q.1 q.2 k (fun h => hq h.symm)]
          exact hd

lemma mem_keys_dupsert {α : Type} :
    ∀ (m : List (Str × α)) (k : Str) (v : α) (x : Str),
      x ∈ (dupsert m k v).map Prod.fst → x ∈ m.map Prod.fst ∨ x = k := by
  intro m
  induction m with
  | nil =>
      intro k v x hx
      simp only [dupsert, List.map_cons, List.map_nil,
        List.mem_singleton] at hx
      exact Or.inr hx
  | cons p rest ih =>
      intro k v x hx
      by_cases h : p.1 = k
      · simp only [dupsert, h, if_true, List.map_cons, List.mem_cons] at hx
        rcases hx with hx | hx
        · exact Or.inr hx
        · left
          simp only [List.map_cons, List.mem_cons]
          exact Or.inr hx
      · simp only [dupsert, h, if_false, List.map_cons, List.mem_cons] at hx
        rcases hx with hx | hx
        · left
          simp only [List.map_cons, List.mem_cons]
          exact Or.inl hx
        · rcases ih k v x hx with h2 | h2
          · left
            simp only [List.map_cons, List.mem_cons]
            exact Or.inr h2
          · exact Or.inr h2

lemma nodup_keys_dupsert {α : Type} :
    ∀ (m : List (Str × α)) (k : Str) (v : α),
      (m.map Prod.fst).Nodup → ((dupsert m k v).map Prod.fst).Nodup := by
  intro m
  induction m with
  | nil => intro k v _; simp [dupsert]
  | cons p rest ih =>
      intro k v hn
      simp only [List.map_cons, List.nodup_cons] at hn
      by_cases h : p.1 = k
      · simp only [dupsert, h, if_true, List.map_cons, List.nodup_cons]
        exact ⟨h ▸ hn.1, hn.2⟩
      · simp only [dupsert, h, if_false, List.map_cons, List.nodup_cons]
        refine ⟨?_, ih k v hn.2⟩
        intro hx
        rcases mem_keys_dupsert rest k v p.1 hx with h2 | h2
        · exact hn.1 h2
        · exact h h2

lemma nodup_keys_fold :
    ∀ (ps : List (Str × Str)) (m0 : List (Str × Str)),
      (m0.map Prod.fst).Nodup →
      ((ps.foldl (fun m p => dupsert m p.1 p.2) m0).map Prod.fst).Nodup := by
  intro ps
  induction ps with
  | nil => intro m0 h; simpa using h
  | cons q ps ih =>
      intro m0 h
      rw [List.foldl_cons]
      exact ih (dupsert m0 q.1 q.2) (nodup_keys_dupsert m0 q.1 q.2 h)

lemma mem_of_dlookup {α : Type} :
    ∀ (m : List (Str × α)) (k : Str) (v : α),
      dlookup m k = some v → (k, v) ∈ m := by
  intro m
  induction m with
  | nil => intro k v h; simp [dlookup] at h
  | cons p rest ih =>
      intro k v h
      by_cases hp : p.1 = k
      · simp only [dlookup, hp, if_true, Option.some_inj] at h
        have hkv : (k, v) = p := by
          rw [← hp, ← h]
        rw [hkv]
        exact List.mem_cons_self _ _
      · simp only [dlookup, hp, if_false] at h
        exact List.mem_cons_of_mem _ (ih k v h)

/- ### Bracket-freeness of the pieces of a stable token -/

lemma lookup_mem {α β : Type} [BEq α] [LawfulBEq α] :
    ∀ (l : List (α × β)) (a : α) (b : β), l.lookup a = some b → (a, b) ∈ l := by
  intro l
  induction l with
  | nil => intro a b h; simp [List.lookup] at h
  | cons p rest ih =>
      intro a b h
      rw [List.lookup] at h
      by_cases hp : (a == p.1) = true
      · rw [hp] at h
        simp only [Option.some_inj] at h
        have ha : a = p.1 := eq_of_beq hp
        have hab : (a, b) = p := by
          rw [ha, ← h]
        rw [hab]
        exact List.mem_cons_self _ _
      · rw [Bool.not_eq_true] at hp
        rw [hp] at h
        exact List.mem_cons_of_mem _ (ih a b h)

lemma upChar_not_bracket (c : Char) :
    (c ≠ '[' → upChar c ≠ '[') ∧ (c ≠ ']' → upChar c ≠ ']') := by
  unfold upChar
  cases h : upPairs.lookup c with
  | none => exact ⟨fun h2 => h2, fun h2 => h2⟩
  | some u =>
      have hmem : (c, u) ∈ upPairs := lookup_mem upPairs c u h
      have : ∀ p ∈ upPairs, p.2 ≠ '[' ∧ p.2 ≠ ']' := by decide
      exact ⟨fun _ => (this _ hmem).1, fun _ => (this _ hmem).2⟩

lemma pyUpper_not_bracket (l : Str) :
    ('[' ∉ l → '[' ∉ pyUpper l) ∧ (']' ∉ l → ']' ∉ pyUpper l) := by
  constructor
  · intro h hmem
    rcases List.mem_map.mp hmem with ⟨c, hc, heq⟩
    exact (upChar_not_bracket c).1 (fun h2 => h (h2 ▸ hc)) heq
  · intro h hmem
    rcases List.mem_map.mp hmem with ⟨c, hc, heq⟩
    exact (upChar_not_bracket c).2 (fun h2 => h (h2 ▸ hc)) heq

lemma hexChar_not_bracket : ∀ n, hexChar n ≠ '[' ∧ hexChar n ≠ ']' := by
  intro n
  unfold hexChar
  split <;> exact ⟨by decide, by decide⟩

lemma sha1Hex_not_bracket (msg : List ℕ) :
    ∀ c ∈ sha1Hex msg, c ≠ '[' ∧ c ≠ ']' := by
  intro c hc
  rcases List.mem_flatten.mp hc with ⟨l, hl, hcl⟩
  rcases List.mem_map.mp hl with ⟨b, _, hb⟩
  rw [← hb] at hcl
  rcases List.mem_cons.mp hcl with h | h
  · exact h ▸ hexChar_not_bracket _
  · rcases List.mem_singleton.mp (by simpa using h) with h2
    exact h2 ▸ hexChar_not_bracket _

/-- Stable tokens over bracket-free labels are clean tokens. -/
lemma cleanTok_stable (label value : Str) (h1 : '[' ∉ label)
    (h2 : ']' ∉ label) : CleanTok (stable_token label value) := by
  refine ⟨label ++ '_' ::
    (sha1Hex (utf8Encode (label ++ s2l "::" ++ value))).take 8, ?_, ?_, ?_⟩
  · simp [stable_token, s2l]
  · intro hmem
    rcases List.mem_append.mp hmem with h | h
    · exact h1 h
    · rcases List.mem_cons.mp h with h | h
      · exact absurd h.symm (by decide)
      · exact (sha1Hex_not_bracket _ _ (List.mem_of_mem_take h)).1 rfl
  · intro hmem
    rcases List.mem_append.mp hmem with h | h
    · exact h2 h
    · rcases List.mem_cons.mp h with h | h
      · exact absurd h.symm (by decide)
      · exact (sha1Hex_not_bracket _ _ (List.mem_of_mem_take h)).2 rfl

lemma origOf_sub (text : Str) (h : Treffer) :
    ∀ c ∈ origOf text h, c ∈ text := by
  intro c hc
  exact List.drop_subset _ _ (List.take_subset _ _ hc)

lemma chunksOf_seg (text : Str) :
    ∀ (hs : List Treffer) (pos : ℕ) (s : Str),
      Chunk.seg s ∈ chunksOf text pos hs → ∀ c ∈ s, c ∈ text := by
  intro hs
  induction hs with
  | nil =>
      intro pos s hmem c hc
      simp [chunksOf] at hmem
      exact List.drop_subset _ _ (hmem ▸ hc)
  | cons h hs ih =>
      intro pos s hmem c hc
      rcases List.mem_cons.mp hmem with he | hmem
      · cases he
        exact List.drop_subset _ _ (List.take_subset _ _ hc)
      · rcases List.mem_cons.mp hmem with he | hmem
        · exact absurd he (by simp)
        · exact ih h.ende s hmem c hc

lemma chunksOf_tok (text : Str) :
    ∀ (hs : List Treffer) (pos : ℕ) (k v : Str),
      Chunk.tok k v ∈ chunksOf text pos hs →
      ∃ h ∈ hs, k = tagOf text h ∧ v = origOf text h := by
  intro hs
  induction hs with
  | nil => intro pos k v hmem; simp [chunksOf] at hmem
  | cons h hs ih =>
      intro pos k v hmem
      rcases List.mem_cons.mp hmem with he | hmem
      · exact absurd he (by simp)
      · rcases List.mem_cons.mp hmem with he | hmem
        · obtain ⟨h1, h2⟩ := Chunk.tok.injEq .. ▸ he
          exact ⟨h, List.mem_cons_self _ _, by cases he; exact ⟨rfl, rfl⟩⟩
        · obtain ⟨h3, hh3, he3⟩ := ih h.ende k v hmem
          exact ⟨h3, List.mem_cons_of_mem _ hh3, he3⟩

lemma render_full (text : Str) :
    ∀ (hs : List Treffer) (pos : ℕ),
      (∀ h ∈ hs, h.start ≤ h.ende ∧ h.ende ≤ text.length) →
      ChainOK pos hs →
      renderC (fullErsetzt (chunksOf text pos hs)) = text.drop pos := by
  intro hs
  induction hs with
  | nil =>
      intro pos _ _
      simp [chunksOf, fullErsetzt, renderC, chunkStr]
  | cons h hs ih =>
      intro pos hb hchain
      have h1 := hb h (List.mem_cons_self _ _)
      have hrest := ih h.ende (fun x hx => hb x (List.mem_cons_of_mem _ hx))
        hchain.2
      have step1 : origOf text h ++ text.drop h.ende = text.drop h.start := by
        unfold origOf pySlice
        have hd : (text.drop h.start).drop (h.ende - h.start) =
            text.drop h.ende := by
          rw [List.drop_drop]
          rw [Nat.add_sub_cancel' h1.1]
        rw [← hd]
        exact List.take_append_drop _ _
      have step2 : (text.drop pos).take (h.start - pos) ++ text.drop h.start =
          text.drop pos := by
        have hd : (text.drop pos).drop (h.start - pos) = text.drop h.start := by
          rw [List.drop_drop]
          rw [Nat.add_sub_cancel' hchain.1]
        rw [← hd]
        exact List.take_append_drop _ _
      calc renderC (fullErsetzt (chunksOf text pos (h :: hs)))
          = (text.drop pos).take (h.start - pos) ++
            (origOf text h ++
              renderC (fullErsetzt (chunksOf text h.ende hs))) := by
            simp [chunksOf, fullErsetzt, renderC, chunkStr]
        _ = (text.drop pos).take (h.start - pos) ++
            (origOf text h ++ text.drop h.ende) := by rw [hrest]
        _ = (text.drop pos).take (h.start - pos) ++ text.drop h.start := by
            rw [step1]
        _ = text.drop pos := step2

lemma chainOK_of :
    ∀ (hs : List Treffer) (pos : ℕ),
      (∀ h ∈ hs, pos ≤ h.start) → hs.Sorted startVor →
      hs.Pairwise (fun a b => ¬ a.ueberschneidet b = true) →
      (∀ h ∈ hs, h.start < h.ende) → ChainOK pos hs := by
  intro hs
  induction hs with
  | nil => intro pos _ _ _ _; trivial
  | cons h hs ih =>
      intro pos hpos hsort hov hv
      refine ⟨hpos h (List.mem_cons_self _ _), ?_⟩
      have hsc := List.pairwise_cons.mp hsort
      have hoc := List.pairwise_cons.mp hov
      refine ih h.ende ?_ hsc.2 hoc.2 (fun x hx => hv x (List.mem_cons_of_mem _ hx))
      intro x hx
      have hno := hoc.1 x hx
      rw [ueberschneidet_iff] at hno
      push_neg at hno
      by_contra hcon
      push_neg at hcon
      exact absurd (hno hcon)
        (not_le.mpr (lt_of_le_of_lt (hsc.1 x hx) (hv x (List.mem_cons_of_mem _ hx))))

/- ### C2: the amended round-trip theorem -/

/-- C2 (amended): for a start-sorted, overlap-free, in-bounds span set, the
round trip `de_anonymize (anonymize text)` restores the text, provided
additionally that the text contains no opening bracket, every label is
bracket-free, and the generated tokens are collision-free on the span set. -/
theorem roundtrip_amended (text : Str) (hits : List Treffer)
    (hsort : hits.Sorted startVor)
    (hov : hits.Pairwise (fun a b => ¬ a.ueberschneidet b = true))
    (hbounds : ∀ h ∈ hits, h.start < h.ende ∧ h.ende ≤ text.length)
    (htext : '[' ∉ text)
    (hlabels : ∀ h ∈ hits, '[' ∉ h.label ∧ ']' ∉ h.label)
    (hcoll : ∀ h1 ∈ hits, ∀ h2 ∈ hits, tagOf text h1 = tagOf text h2 →
      origOf text h1 = origOf text h2) :
    de_anonymize (anonymize text hits).1 (anonymize text hits).2 = text := by
  have hsorteq : List.insertionSort startVor hits = hits :=
    List.Sorted.insertionSort_eq hsort
  have hfst : (anonymize text hits).1 = renderC (chunksOf text 0 hits) := by
    rw [anonymize, hsorteq, anonLoop_fst]
  have hsnd : (anonymize text hits).2 =
      hits.foldl (fun m h => dupsert m (tagOf text h) (origOf text h)) [] := by
    rw [anonymize, hsorteq, anonLoop_snd]
  have hmap : hits.foldl
      (fun m h => dupsert m (tagOf text h) (origOf text h))
      ([] : List (Str × Str)) =
      (hits.map (fun h => (tagOf text h, origOf text h))).foldl
        (fun m p => dupsert m p.1 p.2) [] := by
    rw [List.foldl_map]
  have hments : ∀ kv ∈ (anonymize text hits).2, ∃ h ∈ hits,
      kv = (tagOf text h, origOf text h) := by
    intro kv hkv
    rw [anonymize, hsorteq] at hkv
    rcases anonLoop_mapping_mem text hits 0 [] kv hkv with h | ⟨h, hh, he⟩
    · simp at h
    · exact ⟨h, hh, by rw [he]; rfl⟩
  have hlook : ∀ h ∈ hits,
      dlookup (anonymize text hits).2 (tagOf text h) =
        some (origOf text h) := by
    intro h hh
    rw [hsnd, hmap]
    refine dlookup_fold_dupsert _ [] _ _ ?_ ?_
    · intro p hp hpk
      rcases List.mem_map.mp hp with ⟨h2, hh2, he2⟩
      rw [← he2] at hpk ⊢
      simp only at hpk ⊢
      exact hcoll h2 hh2 h hh hpk
    · exact Or.inl ⟨(tagOf text h, origOf text h),
        List.mem_map.mpr ⟨h, hh, rfl⟩, rfl⟩
  have hnodupm : (((anonymize text hits).2).map Prod.fst).Nodup := by
    rw [hsnd, hmap]
    exact nodup_keys_fold _ [] (by simp)
  have hperm := List.perm_insertionSort laengerVor (anonymize text hits).2
  have hcleanL : ∀ kv ∈ List.insertionSort laengerVor (anonymize text hits).2,
      CleanTok kv.1 := by
    intro kv hkv
    rcases hments kv (hperm.mem_iff.mp hkv) with ⟨h, hh, he⟩
    rw [he]
    exact cleanTok_stable _ _
      ((pyUpper_not_bracket h.label).1 (hlabels h hh).1)
      ((pyUpper_not_bracket h.label).2 (hlabels h hh).2)
  have hnodupL : ((List.insertionSort laengerVor
      (anonymize text hits).2).map Prod.fst).Nodup :=
    ((hperm.map Prod.fst).nodup_iff).mpr hnodupm
  have hsegs : ∀ s, Chunk.seg s ∈ chunksOf text 0 hits → '[' ∉ s := by
    intro s hs hmem
    exact htext (chunksOf_seg text hits 0 s hs _ hmem)
  have htoks : ∀ k v, Chunk.tok k v ∈ chunksOf text 0 hits →
      CleanTok k ∧ '[' ∉ v ∧
      (k, v) ∈ List.insertionSort laengerVor (anonymize text hits).2 := by
    intro k v hkv
    rcases chunksOf_tok text hits 0 k v hkv with ⟨h, hh, hk, hv⟩
    refine ⟨?_, ?_, ?_⟩
    · rw [hk]
      exact cleanTok_stable _ _
        ((pyUpper_not_bracket h.label).1 (hlabels h hh).1)
        ((pyUpper_not_bracket h.label).2 (hlabels h hh).2)
    · rw [hv]
      intro hmem
      exact htext (origOf_sub text h _ hmem)
    · rw [hk, hv]
      exact hperm.mem_iff.mpr (mem_of_dlookup _ _ _ (hlook h hh))
  rw [de_anonymize, hfst]
  rw [dean_loop (List.insertionSort laengerVor (anonymize text hits).2)
    (chunksOf text 0 hits) hcleanL hnodupL hsegs htoks]
  rw [render_full text hits 0
    (fun h hh => ⟨Nat.le_of_lt (hbounds h hh).1, (hbounds h hh).2⟩)
    (chainOK_of hits 0 (fun h _ => Nat.zero_le _) hsort hov
      (fun h hh => (hbounds h hh).1))]
  exact List.drop_zero text

/-- C2 amended-theorem witness at a concrete text and hit list. -/
theorem roundtrip_amended_witness :
    de_anonymize (anonymize (s2l "ab")
        [⟨0, 1, s2l "p", s2l "ner", false, true⟩]).1
      (anonymize (s2l "ab") [⟨0, 1, s2l "p", s2l "ner", false, true⟩]).2 =
      s2l "ab" :=
  roundtrip_amended (s2l "ab") [⟨0, 1, s2l "p", s2l "ner", false, true⟩]
    (List.sorted_singleton _) (List.pairwise_singleton _ _)
    (by decide) (by decide) (by decide)
    (fun h1 hm1 h2 hm2 _ => by
      rw [List.mem_singleton.mp hm1, List.mem_singleton.mp hm2])

/- ### C2: counterexample to the unconditional round-trip law -/

lemma sha1_length (msg : List ℕ) : (sha1 msg).length = 20 := by
  simp [sha1, wordBytes]

lemma sum_map_two : ∀ (l : List ℕ), (l.map (fun _ => (2 : ℕ))).sum = 2 * l.length := by
  intro l
  induction l with
  | nil => rfl
  | cons a l ih =>
      simp only [List.map_cons, List.sum_cons, ih, List.length_cons]
      omega

lemma sha1Hex_length (msg : List ℕ) : (sha1Hex msg).length = 40 := by
  rw [sha1Hex, List.length_flatten, List.map_map]
  have h2 : (List.length ∘ byteToHex) = fun (_ : ℕ) => (2 : ℕ) :=
    funext (fun b => rfl)
  rw [h2, sum_map_two, sha1_length]

lemma stable_token_length (L v : Str) :
    (stable_token L v).length = L.length + 11 := by
  simp only [stable_token,
    show s2l "[" = ['['] from rfl, show s2l "_" = ['_'] from rfl,
    show s2l "]" = [']'] from rfl, List.length_append, List.length_take,
    sha1Hex_length, List.length_cons, List.length_nil]
  omega

lemma cexTok_length : cexTok.length = 12 := by
  rw [cexTok, stable_token_length]
  rfl

lemma cexText_length : cexText.length = 13 := by
  rw [cexText, List.length_append, cexTok_length]
  rfl

lemma cex_orig : pySlice cexText 12 13 = s2l "x" := by
  rw [pySlice, cexText, List.drop_left' cexTok_length]
  rfl

lemma cex_tag : tagOf cexText cexHit = cexTok := by
  rw [tagOf, origOf]
  show stable_token (pyUpper (s2l "A")) (pySlice cexText 12 13) = cexTok
  rw [cex_orig, show pyUpper (s2l "A") = s2l "A" by decide]
  rfl

lemma cex_fst : (anonymize cexText [cexHit]).1 = cexTok ++ cexTok := by
  rw [anonymize,
    show List.insertionSort startVor [cexHit] = [cexHit] from rfl,
    anonLoop_fst]
  have h1 : cexText.take 12 = cexTok := by
    rw [cexText]
    exact List.take_left' cexTok_length
  have h3 : cexText.drop 13 = [] :=
    List.drop_eq_nil_of_le (le_of_eq cexText_length)
  simp only [chunksOf, renderC, List.map_cons, chunkStr, List.map_nil,
    List.flatten, cex_tag]
  show cexText.take (cexHit.start - 0) ++
    (cexTok ++ (cexText.drop cexHit.ende ++ [])) = cexTok ++ cexTok
  rw [show cexHit.start - 0 = 12 from rfl, show cexHit.ende = 13 from rfl,
    h1, h3]
  simp

lemma cex_snd : (anonymize cexText [cexHit]).2 = [(cexTok, s2l "x")] := by
  rw [anonymize,
    show List.insertionSort startVor [cexHit] = [cexHit] from rfl,
    anonLoop_snd]
  rw [List.foldl_cons, List.foldl_nil]
  rw [show origOf cexText cexHit = s2l "x" from cex_orig, cex_tag]
  rfl

lemma cexTok_ne_nil : cexTok ≠ [] := by
  intro h
  have h2 := congrArg List.length h
  rw [cexTok_length] at h2
  simp at h2

lemma cex_dean :
    de_anonymize (cexTok ++ cexTok) [(cexTok, s2l "x")] =
      s2l "x" ++ s2l "x" := by
  rw [de_anonymize,
    show List.insertionSort laengerVor [(cexTok, s2l "x")] =
      [(cexTok, s2l "x")] from rfl,
    List.foldl_cons, List.foldl_nil]
  show pyReplace (cexTok ++ cexTok) cexTok (s2l "x") = s2l "x" ++ s2l "x"
  rw [pyReplace, if_neg cexTok_ne_nil]
  rw [ersetze_self cexTok (s2l "x") cexTok_ne_nil]
  have h2 : ersetzeAlle cexTok (s2l "x") cexTok = s2l "x" := by
    have h := ersetze_self cexTok (s2l "x") cexTok_ne_nil []
    rw [List.append_nil] at h
    rw [h, ersetze_nil, List.append_nil]
  rw [h2]

/-- C2 counterexample: a start-sorted, overlap-free, in-bounds span set and a
text for which the round trip does not restore the text — the generated token
also occurs literally in the original text, and `str.replace` rewrites both
occurrences. -/
theorem roundtrip_counterexample :
    ([cexHit] : List Treffer).Sorted startVor ∧
    ([cexHit] : List Treffer).Pairwise
      (fun a b => ¬ a.ueberschneidet b = true) ∧
    (∀ h ∈ ([cexHit] : List Treffer),
      h.start < h.ende ∧ h.ende ≤ cexText.length) ∧
    de_anonymize (anonymize cexText [cexHit]).1
      (anonymize cexText [cexHit]).2 ≠ cexText := by
  refine ⟨List.sorted_singleton _, List.pairwise_singleton _ _, ?_, ?_⟩
  · intro h hm
    rw [List.mem_singleton.mp hm]
    exact ⟨by decide, le_of_eq cexText_length.symm⟩
  · rw [cex_fst, cex_snd, cex_dean]
    intro heq
    have h2 := congrArg List.length heq
    rw [cexText_length] at h2
    simp [s2l] at h2

/- ### C9: load failures yield an empty store -/

/-- C9: a missing file, an empty (whitespace-only) file, an unparsable
file, and a parsed non-object value all load as the empty store: no
sessions and no active session (and, being a total function here, the
load completes without raising). -/
theorem load_failure_empty_store (now : ℚ) (parse : Str → Option JVal)
    (pyStr : JVal → Str) :
    (load_from_disk now none parse pyStr = ([], none)) ∧
    (∀ s : Str, pyStrip s = [] →
      load_from_disk now (some s) parse pyStr = ([], none)) ∧
    (∀ s : Str, parse (pyStrip s) = none →
      load_from_disk now (some s) parse pyStr = ([], none)) ∧
    (∀ (s : Str) (j : JVal), parse (pyStrip s) = some j →
      (∀ fields, j ≠ JVal.jobj fields) →
      load_from_disk now (some s) parse pyStr = ([], none)) := by
  refine ⟨rfl, ?_, ?_, ?_⟩
  · intro s h
    simp [load_from_disk, h]
  · intro s h
    by_cases he : pyStrip s = []
    · simp [load_from_disk, he]
    · simp [load_from_disk, he, h]
  · intro s j hp hno
    by_cases he : pyStrip s = []
    · simp [load_from_disk, he]
    · cases j with
      | jobj fields => exact absurd rfl (hno fields)
      | jnull => simp [load_from_disk, he, hp]
      | jbool b => simp [load_from_disk, he, hp]
      | jnum q => simp [load_from_disk, he, hp]
      | jstr s2 => simp [load_from_disk, he, hp]
      | jarr l => simp [load_from_disk, he, hp]

/-- C9 witness: the four failure shapes at concrete inputs. -/
theorem load_failure_empty_store_witness :
    (load_from_disk 0 none (fun _ => none) (fun _ => []) = ([], none)) ∧
    (load_from_disk 0 (some (s2l " ")) (fun _ => none) (fun _ => []) =
      ([], none)) ∧
    (load_from_disk 0 (some (s2l "x")) (fun _ => none) (fun _ => []) =
      ([], none)) ∧
    (load_from_disk 0 (some (s2l "x")) (fun _ => some (JVal.jarr []))
      (fun _ => []) = ([], none)) :=
  ⟨(load_failure_empty_store 0 (fun _ => none) (fun _ => [])).1,
   (load_failure_empty_store 0 (fun _ => none) (fun _ => [])).2.1 _
     (by decide),
   (load_failure_empty_store 0 (fun _ => none) (fun _ => [])).2.2.1 _ rfl,
   (load_failure_empty_store 0 (fun _ => some (JVal.jarr []))
     (fun _ => [])).2.2.2 _ _ rfl (fun fields h => JVal.noConfusion h)⟩

/- ### C6: TTL boundary behaviour of cleanup -/

lemma contains_iff_mem {l : List Str} {a : Str} :
    l.contains a = true ↔ a ∈ l :=
  ⟨fun h => List.elem_iff.mp h, fun h => List.elem_iff.mpr h⟩

lemma dlookup_of_mem_nodup {α : Type} :
    ∀ (l : List (Str × α)), (l.map Prod.fst).Nodup →
      ∀ (k : Str) (v : α), (k, v) ∈ l → dlookup l k = some v := by
  intro l
  induction l with
  | nil => intro _ k v h; simp at h
  | cons p rest ih =>
      intro hnd k v h
      simp only [List.map_cons, List.nodup_cons] at hnd
      rcases List.mem_cons.mp h with h | h
      · rw [← h]
        simp [dlookup]
      · have hne : p.1 ≠ k := by
          intro he
          exact hnd.1 (he ▸ List.mem_map.mpr ⟨(k, v), h, rfl⟩)
        simp only [dlookup, hne, if_false]
        exact ih hnd.2 k v h

lemma dlookup_filter {α : Type} (p : Str × α → Bool) :
    ∀ (l : List (Str × α)) (k : Str) (v : α), dlookup l k = some v →
      p (k, v) = true → dlookup (l.filter p) k = some v := by
  intro l
  induction l with
  | nil => intro k v h _; simp [dlookup] at h
  | cons q rest ih =>
      intro k v h hp
      by_cases hq : q.1 = k
      · have hv : q.2 = v := by
          simpa [dlookup, hq] using h
        have hqkv : q = (k, v) := by
          rw [← hq, ← hv]
        rw [List.filter_cons, hqkv, if_pos hp]
        simp [dlookup]
      · have h2 : dlookup rest k = some v := by
          simpa [dlookup, hq] using h
        rw [List.filter_cons]
        by_cases hpq : p q = true
        · rw [if_pos hpq]
          simp only [dlookup, hq, if_false]
          exact ih k v h2 hp
        · rw [if_neg hpq]
          exact ih k v h2 hp

lemma dlookup_filter_out (dels : List Str) :
    ∀ (l : List (Str × Session)) (sid : Str), dels.contains sid = true →
      dlookup (l.filter (fun q => !(dels.contains q.1))) sid = none := by
  intro l
  induction l with
  | nil => intro sid _; rfl
  | cons q rest ih =>
      intro sid hc
      rw [List.filter_cons]
      by_cases hq : (!(dels.contains q.1)) = true
      · rw [if_pos hq]
        have hne : q.1 ≠ sid := by
          intro he
          rw [he, hc] at hq
          simp at hq
        simp only [dlookup, hne, if_false]
        exact ih sid hc
      · rw [if_neg hq]
        exact ih sid hc

lemma cleanup_expired_eq (now : ℚ) (st : Store) (h : st.sessions ≠ []) :
    cleanup_expired now st =
      { st with
        sessions := st.sessions.filter (fun p =>
          !(((st.sessions.filter (expiryPred now st.ttl_seconds)).map
            Prod.fst).contains p.1)),
        active := match st.active with
          | none => none
          | some a =>
              if ((st.sessions.filter (expiryPred now st.ttl_seconds)).map
                Prod.fst).contains a then none else some a } := by
  rw [cleanup_expired, if_neg h]
  rfl

lemma cleanup_keeps (now : ℚ) (st : Store) (sid : Str) (sess : Session)
    (hnd : (st.sessions.map Prod.fst).Nodup)
    (hfind : dlookup st.sessions sid = some sess)
    (hpred : expiryPred now st.ttl_seconds (sid, sess) = false) :
    dlookup (cleanup_expired now st).sessions sid = some sess := by
  have hne : st.sessions ≠ [] := by
    intro h
    rw [h] at hfind
    simp [dlookup] at hfind
  rw [cleanup_expired_eq now st hne]
  refine dlookup_filter _ _ _ _ hfind ?_
  have hnmem : sid ∉ (st.sessions.filter
      (expiryPred now st.ttl_seconds)).map Prod.fst := by
    intro hmem
    rcases List.mem_map.mp hmem with ⟨q, hq, hqs⟩
    have hq1 := (List.mem_filter.mp hq).1
    have hq2 := (List.mem_filter.mp hq).2
    have hv : q.2 = sess := by
      have h3 : dlookup st.sessions sid = some q.2 := by
        rw [← hqs]
        exact dlookup_of_mem_nodup st.sessions hnd q.1 q.2 (by
          rw [Prod.mk.eta]
          exact hq1)
      rw [hfind] at h3
      exact (Option.some_inj.mp h3).symm
    have hqkv : q = (sid, sess) := Prod.ext hqs hv
    rw [hqkv, hpred] at hq2
    exact Bool.false_ne_true hq2
  simp only [Bool.not_eq_true']
  exact Bool.eq_false_iff.mpr (fun hc => hnmem (contains_iff_mem.mp hc))

lemma cleanup_drops (now : ℚ) (st : Store) (sid : Str) (sess : Session)
    (hfind : dlookup st.sessions sid = some sess)
    (hpred : expiryPred now st.ttl_seconds (sid, sess) = true) :
    dlookup (cleanup_expired now st).sessions sid = none := by
  have hne : st.sessions ≠ [] := by
    intro h
    rw [h] at hfind
    simp [dlookup] at hfind
  rw [cleanup_expired_eq now st hne]
  refine dlookup_filter_out _ _ _ ?_
  refine contains_iff_mem.mpr ?_
  refine List.mem_map.mpr ⟨(sid, sess), ?_, rfl⟩
  refine List.mem_filter.mpr ⟨mem_of_dlookup _ _ _ hfind, hpred⟩

/-- C6 (amended): a session closed at a nonzero time t0 is still present
when cleanup runs at t0 + ttl - 1 and removed when cleanup runs at
t0 + ttl + 1 (presence needs no t0 ≠ 0 side condition; removal does,
because a 0.0 `closed_at` is falsy); a session with null `closed_at` is
never removed, regardless of the cleanup time. -/
theorem ttl_boundary (st : Store) (sid : Str) (sess : Session) (t0 : ℚ)
    (hnd : (st.sessions.map Prod.fst).Nodup)
    (hfind : dlookup st.sessions sid = some sess) :
    (sess.closed_at = some t0 →
      dlookup (cleanup_expired (t0 + (st.ttl_seconds : ℚ) - 1) st).sessions
        sid = some sess) ∧
    (sess.closed_at = some t0 → t0 ≠ 0 →
      dlookup (cleanup_expired (t0 + (st.ttl_seconds : ℚ) + 1) st).sessions
        sid = none) ∧
    (sess.closed_at = none → ∀ now2 : ℚ,
      dlookup (cleanup_expired now2 st).sessions sid = some sess) := by
  refine ⟨?_, ?_, ?_⟩
  · intro hc
    refine cleanup_keeps _ st sid sess hnd hfind ?_
    rw [expiryPred, hc]
    have harith : ¬ ((st.ttl_seconds : ℚ) ≤
        t0 + (st.ttl_seconds : ℚ) - 1 - t0) := by
      intro hle
      linarith
    simp only [Option.getD_some, decide_eq_false harith, Bool.and_false]
  · intro hc h0
    refine cleanup_drops _ st sid sess hfind ?_
    rw [expiryPred, hc]
    have harith : (st.ttl_seconds : ℚ) ≤
        t0 + (st.ttl_seconds : ℚ) + 1 - t0 := by
      linarith
    simp only [closedTruthy, Option.getD_some, decide_eq_true harith,
      decide_eq_true h0, Bool.and_self]
  · intro hc now2
    refine cleanup_keeps _ st sid sess hnd hfind ?_
    rw [expiryPred, hc]
    simp [closedTruthy]

/-- C6 counterexample: with ttl = 10, a session closed at t0 = 0 is still
present when cleanup runs at t0 + ttl + 1 = 11, because `if not closed_at`
treats the 0.0 timestamp as unclosed; the claim says it is removed. -/
theorem ttl_boundary_counterexample :
    dlookup (cleanup_expired ((0 : ℚ) + 10 + 1) c6store).sessions (s2l "s") =
      some c6sess := by decide

/-- C6 witness: boundary behaviour at a concrete closed session and
immortality of a concrete unclosed session. -/
theorem ttl_boundary_witness :
    (dlookup (cleanup_expired (5 + (c6wstore.ttl_seconds : ℚ) - 1)
      c6wstore).sessions (s2l "w") = some c6wsess) ∧
    (dlookup (cleanup_expired (5 + (c6wstore.ttl_seconds : ℚ) + 1)
      c6wstore).sessions (s2l "w") = none) ∧
    (dlookup (cleanup_expired 99999 c6astore).sessions (s2l "u") =
      some c6asess) :=
  ⟨(ttl_boundary c6wstore (s2l "w") c6wsess 5 (by decide) (by decide)).1 rfl,
   (ttl_boundary c6wstore (s2l "w") c6wsess 5 (by decide) (by decide)).2.1 rfl
     (by norm_num),
   (ttl_boundary c6astore (s2l "u") c6asess 5 (by decide) (by decide)).2.2 rfl
     99999⟩

/- ### C8: characterization of find_existing_token -/

/-- C8 (amended): `find_existing_token` returns a token exactly when, after
the initial expiry cleanup, there is a truthy active session whose index
maps the normalized key to a non-empty token that is still a mapping key
and whose stored value equals the queried original after stripping both
(the source compares `str(...).strip()` on both sides, not exact
equality). -/
theorem find_token_characterization (now : ℚ) (st : Store)
    (label original t : Str) :
    find_existing_token now st label original = some t ↔
      ∃ a sess v,
        (cleanup_expired now st).active = some a ∧ a ≠ [] ∧
        dlookup (cleanup_expired now st).sessions a = some sess ∧
        dlookup sess.index (make_index_key label original) = some t ∧
        t ≠ [] ∧ dlookup sess.mapping t = some v ∧
        pyStrip v = pyStrip original := by
  constructor
  · intro h
    simp only [find_existing_token] at h
    by_cases hT : activeTruthy (cleanup_expired now st).active = false
    · rw [if_pos hT] at h
      exact absurd h (by simp)
    · rw [if_neg hT] at h
      obtain ⟨a, ha⟩ : ∃ a, (cleanup_expired now st).active = some a := by
        cases hc : (cleanup_expired now st).active with
        | none => rw [hc] at hT; exact absurd rfl hT
        | some a => exact ⟨a, rfl⟩
      have hane : a ≠ [] := by
        rw [ha] at hT
        simpa [activeTruthy] using hT
      rw [ha] at h
      simp only [Option.getD_some] at h
      split at h
      next hsess => exact absurd h (by simp)
      next sess hsess =>
        split at h
        next hidx => exact absurd h (by simp)
        next tok hidx =>
          split at h
          next htok => exact absurd h (by simp)
          next htok =>
            split at h
            next hmp => exact absurd h (by simp)
            next v hmp =>
              split at h
              next hstrip =>
                have ht : tok = t := by simpa using h
                rw [ht] at hidx htok hmp
                exact ⟨a, sess, v, ha, hane, hsess, hidx, htok, hmp, hstrip⟩
              next hstrip => exact absurd h (by simp)
  · rintro ⟨a, sess, v, ha, hane, hsess, hidx, htok, hmp, hstrip⟩
    have hT : activeTruthy (cleanup_expired now st).active = true := by
      rw [ha]
      simpa [activeTruthy] using hane
    simp [find_existing_token, hT, ha, hsess, hidx, htok, hmp, hstrip,
      activeTruthy, hane]

/-- C8 counterexample: `find_existing_token` returns the token although the
value stored in the mapping (" v") is not exactly the queried original
("v") — only their stripped forms agree. -/
theorem find_token_counterexample :
    find_existing_token 0 c8store (s2l "L") (s2l "v") = some (s2l "T") ∧
    dlookup c8sess.mapping (s2l "T") = some (s2l " v") ∧
    s2l " v" ≠ s2l "v" := ⟨by decide, by decide, by decide⟩

/-- C8 witness: the characterization applied at the concrete store. -/
theorem find_token_characterization_witness :
    find_existing_token 0 c8store (s2l "L") (s2l "v") = some (s2l "T") :=
  (find_token_characterization 0 c8store (s2l "L") (s2l "v")
    (s2l "T")).mpr
    ⟨s2l "a", c8sess, s2l " v", by decide, by decide, by decide, by decide,
      by decide, by decide, by decide⟩

/- ### C10: the reuse-index key keeps the leading bracket -/

lemma dlookup_single {α : Type} (k : Str) (v : α) :
    dlookup [(k, v)] k = some v := by
  simp [dlookup]

lemma dlookup_single_ne {α : Type} (k k2 : Str) (v : α) (h : k ≠ k2) :
    dlookup [(k, v)] k2 = none := by
  simp [dlookup, h]

/-- C10: for a documented-format token `[L_H]` stored with value v via
`add_mapping` on an empty store, the derived reuse-index key is the token
text before its first underscore — including the leading bracket — and a
subsequent `find_existing_token` with the bare (bracket-free) label
returns `none`, although the session mapping holds the token with exactly
that value. -/
theorem bracket_index_key (ttl : ℤ) (now now2 : ℚ)
    (fresh L H v label : Str) (hfresh : fresh ≠ []) (hlabel : '[' ∉ label) :
    (∃ rest, pyUpper (labelTeil ('[' :: (L ++ '_' :: (H ++ [']'])))) =
      '[' :: rest) ∧
    ∃ sess,
      dlookup (add_mapping now fresh ⟨ttl, [], none⟩
        [('[' :: (L ++ '_' :: (H ++ [']'])), v)]).sessions fresh =
        some sess ∧
      dlookup sess.mapping ('[' :: (L ++ '_' :: (H ++ [']']))) = some v ∧
      find_existing_token now2 (add_mapping now fresh ⟨ttl, [], none⟩
        [('[' :: (L ++ '_' :: (H ++ [']'])), v)]) label v = none := by
  have htail : pyUpper (labelTeil ('[' :: (L ++ '_' :: (H ++ [']'])))) =
      '[' :: pyUpper ((L ++ '_' :: (H ++ [']'])).takeWhile
        (fun c => c ≠ '_')) := by
    rw [labelTeil, List.takeWhile_cons]
    simp [pyUpper, show upChar '[' = '[' from by decide]
  refine ⟨⟨_, htail⟩, ?_⟩
  have e1 : cleanup_expired now (⟨ttl, [], none⟩ : Store) =
      ⟨ttl, [], none⟩ := by
    simp [cleanup_expired]
  have e2 : ensure_active_session now fresh ⟨ttl, [], none⟩ =
      (fresh, ⟨ttl, [(fresh, ⟨fresh, now, none, [], []⟩)], some fresh⟩) := by
    simp [ensure_active_session, e1, activeTruthy]
  have hz : ('[' :: (L ++ '_' :: (H ++ [']']))) ≠ ([] : Str) := by simp
  have hu : '_' ∈ ('[' :: (L ++ '_' :: (H ++ [']']))) := by simp
  have e3 : add_mapping now fresh ⟨ttl, [], none⟩
      [('[' :: (L ++ '_' :: (H ++ [']'])), v)] =
      ⟨ttl, [(fresh, ⟨fresh, now, none,
        [('[' :: (L ++ '_' :: (H ++ [']'])), v)],
        [(make_index_key (pyUpper (labelTeil
          ('[' :: (L ++ '_' :: (H ++ [']'])))))  v,
          '[' :: (L ++ '_' :: (H ++ [']'])))]⟩)], some fresh⟩ := by
    rw [add_mapping, if_neg (by simp)]
    rw [e2]
    simp [dlookup, dupsert, hz, hu, add_step]
  rw [e3]
  refine ⟨_, dlookup_single _ _, dlookup_single _ _, ?_⟩
  have e4 : cleanup_expired now2
      (⟨ttl, [(fresh, ⟨fresh, now, none,
        [('[' :: (L ++ '_' :: (H ++ [']'])), v)],
        [(make_index_key (pyUpper (labelTeil
          ('[' :: (L ++ '_' :: (H ++ [']'])))))  v,
          '[' :: (L ++ '_' :: (H ++ [']'])))]⟩)], some fresh⟩ : Store) =
      ⟨ttl, [(fresh, ⟨fresh, now, none,
        [('[' :: (L ++ '_' :: (H ++ [']'])), v)],
        [(make_index_key (pyUpper (labelTeil
          ('[' :: (L ++ '_' :: (H ++ [']'])))))  v,
          '[' :: (L ++ '_' :: (H ++ [']'])))]⟩)], some fresh⟩ := by
    simp [cleanup_expired, closedTruthy]
  have hkeys : make_index_key (pyUpper (labelTeil
      ('[' :: (L ++ '_' :: (H ++ [']'])))))  v ≠
      make_index_key label v := by
    rw [make_index_key, make_index_key, htail]
    intro heq
    cases hl : label with
    | nil =>
        rw [hl] at heq
        simp [pyUpper] at heq
        exact absurd heq.1 (by decide)
    | cons c label2 =>
        rw [hl] at heq
        have hc : c ≠ '[' := by
          intro h
          exact hlabel (by rw [hl, h]; exact List.mem_cons_self _ _)
        have hup : upChar c ≠ '[' := (upChar_not_bracket c).1 hc
        simp only [pyUpper, List.map_cons, List.cons_append,
          List.cons.injEq] at heq
        exact hup heq.1.symm
  simp only [find_existing_token, e4]
  rw [if_neg (by simp [activeTruthy, hfresh])]
  simp only [Option.getD_some]
  simp [dlookup, hkeys]

/-- C10 witness at a concrete token, value and label. -/
theorem bracket_index_key_witness :
    (∃ rest, pyUpper (labelTeil ('[' :: (s2l "PER" ++ '_' ::
      (s2l "ab12cd34" ++ [']'])))) = '[' :: rest) ∧
    ∃ sess,
      dlookup (add_mapping 0 (s2l "f") ⟨1, [], none⟩
        [('[' :: (s2l "PER" ++ '_' :: (s2l "ab12cd34" ++ [']'])),
          s2l "Max")]).sessions (s2l "f") = some sess ∧
      dlookup sess.mapping ('[' :: (s2l "PER" ++ '_' ::
        (s2l "ab12cd34" ++ [']']))) = some (s2l "Max") ∧
      find_existing_token 0 (add_mapping 0 (s2l "f") ⟨1, [], none⟩
        [('[' :: (s2l "PER" ++ '_' :: (s2l "ab12cd34" ++ [']'])),
          s2l "Max")]) (s2l "PER") (s2l "Max") = none :=
  bracket_index_key 1 0 0 (s2l "f") (s2l "PER") (s2l "ab12cd34")
    (s2l "Max") (s2l "PER") (by decide) (by decide)

lemma mem_rebuild_step (idx : List (Str × Str)) (p kv : Str × Str)
    (h : kv ∈ rebuild_step idx p) : kv ∈ idx ∨ kv.2 = p.1 := by
  unfold rebuild_step at h
  split at h
  · exact Or.inl h
  · split at h
    · simp only [] at h
      split at h
      · exact Or.inl h
      · rcases List.mem_append.mp h with h2 | h2
        · exact Or.inl h2
        · right
          rw [List.mem_singleton.mp h2]
    · exact Or.inl h

lemma rebuild_values :
    ∀ (l acc : List (Str × Str)) (kv : Str × Str),
      kv ∈ l.foldl rebuild_step acc →
      kv ∈ acc ∨ ∃ p ∈ l, kv.2 = p.1 := by
  intro l
  induction l with
  | nil => intro acc kv h; exact Or.inl h
  | cons p l ih =>
      intro acc kv h
      rw [List.foldl_cons] at h
      rcases ih (rebuild_step acc p) kv h with h2 | ⟨q, hq, he⟩
      · rcases mem_rebuild_step acc p kv h2 with h3 | h3
        · exact Or.inl h3
        · exact Or.inr ⟨p, List.mem_cons_self _ _, h3⟩
      · exact Or.inr ⟨q, List.mem_cons_of_mem _ hq, he⟩

lemma keys_dupsert_mono {α : Type} :
    ∀ (m : List (Str × α)) (k : Str) (v : α) (x : Str),
      x ∈ m.map Prod.fst → x ∈ (dupsert m k v).map Prod.fst := by
  intro m
  induction m with
  | nil => intro k v x h; simp at h
  | cons p rest ih =>
      intro k v x h
      simp only [List.map_cons, List.mem_cons] at h
      by_cases hp : p.1 = k
      · simp only [dupsert, hp, if_true, List.map_cons, List.mem_cons]
        rcases h with h | h
        · exact Or.inl (hp ▸ h)
        · exact Or.inr h
      · simp only [dupsert, hp, if_false, List.map_cons, List.mem_cons]
        rcases h with h | h
        · exact Or.inl h
        · exact Or.inr (ih k v x h)

lemma key_mem_dupsert {α : Type} (m : List (Str × α)) (k : Str) (v : α) :
    k ∈ (dupsert m k v).map Prod.fst :=
  List.mem_map.mpr ⟨(k, v), mem_of_dlookup _ _ _ (dlookup_dupsert_self m k v),
    rfl⟩

lemma add_fold_inv :
    ∀ (m : List (Str × Str)) (acc : List (Str × Str) × List (Str × Str)),
      (∀ kv ∈ acc.2, kv.2 ∈ acc.1.map Prod.fst) →
      ∀ kv ∈ (m.foldl add_step acc).2,
        kv.2 ∈ (m.foldl add_step acc).1.map Prod.fst := by
  intro m
  induction m with
  | nil => intro acc h kv hkv; exact h kv hkv
  | cons q m ih =>
      intro acc h kv hkv
      rw [List.foldl_cons] at hkv ⊢
      refine ih (add_step acc q) ?_ kv hkv
      intro kv2 hkv2
      unfold add_step at hkv2 ⊢
      split at hkv2
      · rw [if_pos (by assumption)]
        exact h kv2 hkv2
      · rw [if_neg (by assumption)]
        split at hkv2
        · rw [if_pos (by assumption)]
          rcases mem_dupsert _ _ _ _ hkv2 with h2 | h2
          · exact keys_dupsert_mono _ _ _ _ (h kv2 h2)
          · rw [h2]
            exact key_mem_dupsert _ _ _
        · rw [if_neg (by assumption)]
          exact keys_dupsert_mono _ _ _ _ (h kv2 hkv2)

lemma mem_dremove {α : Type} :
    ∀ (l : List (Str × α)) (k : Str) (p : Str × α),
      p ∈ dremove l k → p ∈ l := by
  intro l
  induction l with
  | nil => intro k p h; simp [dremove] at h
  | cons q rest ih =>
      intro k p h
      unfold dremove at h
      split at h
      · exact List.mem_cons_of_mem _ h
      · rcases List.mem_cons.mp h with h2 | h2
        · exact h2 ▸ List.mem_cons_self _ _
        · exact List.mem_cons_of_mem _ (ih k p h2)

lemma cleanup_pres (now : ℚ) (st : Store) (h : StoreInv st) :
    StoreInv (cleanup_expired now st) := by
  rw [cleanup_expired]
  split
  · exact h
  · intro p hp
    exact h p (List.mem_filter.mp hp).1

lemma ensure_pres (now : ℚ) (fresh : Str) (st : Store) (h : StoreInv st) :
    StoreInv (ensure_active_session now fresh st).2 := by
  rw [ensure_active_session]
  have h1 := cleanup_pres now st h
  split
  · exact h1
  · intro p hp
    rcases List.mem_append.mp hp with h2 | h2
    · exact h1 p h2
    · rw [List.mem_singleton.mp h2]
      intro kv hkv
      simp at hkv

lemma add_mapping_pres (now : ℚ) (fresh : Str) (st : Store)
    (m : List (Str × Str)) (h : StoreInv st) :
    StoreInv (add_mapping now fresh st m) := by
  rw [add_mapping]
  split
  · exact h
  · have hens := ensure_pres now fresh st h
    simp only []
    split
    · exact hens
    next sess hsess =>
      intro p hp
      rcases mem_dupsert _ _ _ _ hp with h2 | h2
      · exact hens p h2
      · rw [h2]
        have hsinv : SessInv sess :=
          hens _ (mem_of_dlookup _ _ _ hsess)
        exact add_fold_inv m (sess.mapping, sess.index) hsinv

lemma close_pres (now : ℚ) (st : Store) (h : StoreInv st) :
    StoreInv (close_active_session now st) := by
  rw [close_active_session]
  have h1 := cleanup_pres now st h
  split
  · exact h1
  · split
    · intro p hp
      exact h1 p hp
    next sess hsess =>
      refine cleanup_pres _ _ ?_
      intro p hp
      rcases mem_dupsert _ _ _ _ hp with h2 | h2
      · exact h1 p h2
      · rw [h2]
        have hsinv : SessInv sess := h1 _ (mem_of_dlookup _ _ _ hsess)
        split
        · exact hsinv
        · exact hsinv

lemma delete_pres (now : ℚ) (st : Store) (sid : Str) (h : StoreInv st) :
    StoreInv (delete_session now st sid) := by
  rw [delete_session]
  have h1 := cleanup_pres now st h
  split
  · exact h1
  · intro p hp
    exact h1 p (mem_dremove _ _ _ hp)

/-- C7 (amended): the index-values-are-mapping-keys invariant holds for any
session whose index equals the rebuilt index of its mapping (as on load
whenever the stored index normalizes to empty), and it is preserved by
add_mapping, cleanup, close_active_session and delete_session. (Loading a
file with a nonempty corrupt stored index, or a remove after a token was
re-mapped to a new value, can violate it — see the counterexample.) -/
theorem index_invariant (st : Store) :
    (∀ sess : Session, sess.index = rebuild_index sess.mapping →
      SessInv sess) ∧
    (∀ (now : ℚ) (fresh : Str) (m : List (Str × Str)), StoreInv st →
      StoreInv (add_mapping now fresh st m)) ∧
    (∀ now : ℚ, StoreInv st → StoreInv (cleanup_expired now st)) ∧
    (∀ now : ℚ, StoreInv st → StoreInv (close_active_session now st)) ∧
    (∀ (now : ℚ) (sid : Str), StoreInv st →
      StoreInv (delete_session now st sid)) := by
  refine ⟨?_, ?_, ?_, ?_, ?_⟩
  · intro sess hidx kv hkv
    rw [hidx] at hkv
    rcases rebuild_values sess.mapping [] kv hkv with h | ⟨p, hp, he⟩
    · simp at h
    · rw [he]
      exact List.mem_map.mpr ⟨p, hp, rfl⟩
  · intro now fresh m h
    exact add_mapping_pres now fresh st m h
  · intro now h
    exact cleanup_pres now st h
  · intro now h
    exact close_pres now st h
  · intro now sid h
    exact delete_pres now st sid h

/-- C7 counterexample: loading a session file whose stored (nonempty) index
is kept without validation produces a session violating the invariant —
its index maps "K" to "T" while its mapping is empty. -/
theorem index_invariant_counterexample :
    ¬ SessionsInv (load_from_disk 0 (some (s2l "x"))
      (fun _ => some c7json) (fun _ => [])).1 := by decide

/-- C7 witness: the rebuilt index satisfies the invariant, and add_mapping
preserves it, at concrete inputs. -/
theorem index_invariant_witness :
    SessInv ⟨s2l "w", 0, none, [(s2l "A_b", s2l "v")],
      rebuild_index [(s2l "A_b", s2l "v")]⟩ ∧
    StoreInv (add_mapping 0 (s2l "f") ⟨1, [], none⟩
      [(s2l "A_b", s2l "v")]) :=
  ⟨(index_invariant ⟨1, [], none⟩).1 _ rfl,
   (index_invariant ⟨1, [], none⟩).2.1 0 (s2l "f") [(s2l "A_b", s2l "v")]
     (by decide)⟩

/-- C4 witness at a concrete input. -/
theorem merge_sorted_and_no_nested_witness :
    (zusammenfuehren [⟨0, 5, s2l "URL", s2l "regex", true, false⟩]
      [⟨2, 4, s2l "ORG", s2l "ner", false, true⟩]).Pairwise
      (fun a b => a.start ≤ b.start) ∧
    ∀ a ∈ zusammenfuehren [⟨0, 5, s2l "URL", s2l "regex", true, false⟩]
      [⟨2, 4, s2l "ORG", s2l "ner", false, true⟩],
    ∀ b ∈ zusammenfuehren [⟨0, 5, s2l "URL", s2l "regex", true, false⟩]
      [⟨2, 4, s2l "ORG", s2l "ner", false, true⟩], a ≠ b →
      ¬(b.start ≤ a.start ∧ a.ende ≤ b.ende) :=
  merge_sorted_and_no_nested [⟨0, 5, s2l "URL", s2l "regex", true, false⟩]
    [⟨2, 4, s2l "ORG", s2l "ner", false, true⟩]
